import Mathlib

/-!
Verification of the bipartite-matching program (Kuhn's algorithm with a
random bipartite graph generator).

The source program consists of:
 * `BipartiteGraph::random`, which draws `num_edges` distinct codes from
   `[0, l*r)` via the rand crate's `sample`, decodes each code `c` to the
   edge `(c / r, c % r)`, records it in both endpoints' neighbour lists
   and finally sorts every neighbour list;
 * `BipartiteGraph::kuhn::<R>`, which runs one augmentation attempt per
   left node (in index order) over a `matched_right : Vec<Option<usize>>`;
 * `BipartiteGraph::try_kuhn::<R>`, the recursive augmenting-path search,
   guarded by a `used_left` visited array, which when `R` holds shuffles
   the current node's neighbour list in place before iterating.

The external rand-crate operations (`sample`, `shuffle`) and the RNG type
are modelled abstractly: `sample` by its documented contract (distinct
in-range indices, failing exactly when the requested amount exceeds the
range, mirroring the panic in `rand::seq::index::sample`), `shuffle` by
the hypothesis that its output is a permutation of its input.  The unused
`data : T` payload of `Node<T>` is omitted: a node is its neighbour list.

Recursion in `try_kuhn` is embedded with a fuel parameter (`none` when the
fuel runs out); we prove that fuel `L + 1` can never run out, so the
fuel is a modelling artifact, not a change of semantics.
-/

/-- A bipartite graph: the neighbour lists of the left and right nodes.
Mirrors `struct BipartiteGraph<T>` (the `data` payload is unused by the
program and omitted). -/
structure BipartiteGraph where
  leftNbrs : List (List Nat)
  rightNbrs : List (List Nat)
deriving DecidableEq, Repr

/-- The mutable state of a `try_kuhn` call: the left neighbour lists
(mutable because the randomized variant shuffles them in place), the
`matched_right` vector, the `used_left` vector and the RNG. -/
structure KState (Rng : Type) where
  adj : List (List Nat)
  matched : List (Option Nat)
  used : List Bool
  rng : Rng
deriving DecidableEq

section Kuhn

variable {Rng : Type} (shuffle : Rng → List Nat → List Nat × Rng)

/-- The neighbour loop of `try_kuhn`: iterate over the (snapshot of the)
current node `v`'s neighbour list; for each `to`, if `matched_right[to]`
is `None`, or the recursive search from `matched_right[to].unwrap()`
succeeds, set `matched_right[to] = Some(v)` and return `true`.
`rec` is the recursive call (the fuel-indexed `tryKuhn`). -/
def goNbrs (rec : Nat → KState Rng → Option (Bool × KState Rng)) (v : Nat) :
    List Nat → KState Rng → Option (Bool × KState Rng)
  | [], s => some (false, s)
  | j :: rest, s =>
    match s.matched.getD j none with
    | none => some (true, { s with matched := s.matched.set j (some v) })
    | some u =>
      match rec u s with
      | none => none
      | some (true, s') => some (true, { s' with matched := s'.matched.set j (some v) })
      | some (false, s') => goNbrs rec v rest s'

/-- The state updates of `try_kuhn` prior to its neighbour loop: mark
`v` as used; when `R`, additionally shuffle `v`'s neighbour list in
place, consuming the RNG. -/
def markShuffle (R : Bool) (v : Nat) (s : KState Rng) : KState Rng :=
  if R then
    { adj := s.adj.set v (shuffle s.rng (s.adj.getD v [])).1,
      matched := s.matched,
      used := s.used.set v true,
      rng := (shuffle s.rng (s.adj.getD v [])).2 }
  else { s with used := s.used.set v true }

/-- Model of `BipartiteGraph::try_kuhn::<R>`: fail immediately if `used_left[v]`,
otherwise mark `v` used, shuffle `v`'s neighbour list when `R`, and run
the neighbour loop.  `fuel` bounds the recursion depth (the program has
no fuel; the `none` branch is shown unreachable from `kuhn`). -/
def tryKuhn (R : Bool) : Nat → Nat → KState Rng → Option (Bool × KState Rng)
  | 0, _, _ => none
  | Nat.succ fuel, v, s =>
    if s.used.getD v true then some (false, s)
    else
      goNbrs (tryKuhn R fuel) v ((markShuffle shuffle R v s).adj.getD v [])
        (markShuffle shuffle R v s)

/-- The state surviving between the outer-loop iterations of `kuhn`
(`used_left` is recreated at every iteration). -/
structure GState (Rng : Type) where
  adj : List (List Nat)
  matched : List (Option Nat)
  rng : Rng
deriving DecidableEq

/-- One iteration of the outer loop of `kuhn`: fresh `used_left`, one
augmentation attempt for left node `v`.  `L` is the number of left
nodes; fuel `L + 1` never runs out (`tryKuhn_fuel_sufficient`). -/
def kuhnStep (R : Bool) (L v : Nat) (s : GState Rng) : GState Rng :=
  match tryKuhn shuffle R (L + 1) v ⟨s.adj, s.matched, List.replicate L false, s.rng⟩ with
  | none => s
  | some (_, t) => ⟨t.adj, t.matched, t.rng⟩

/-- Model of `BipartiteGraph::kuhn::<R>`: `matched_right` starts all-`None` (length
= number of right nodes) and every left node gets one augmentation
attempt, in index order.  Returns the final state (matching, possibly
shuffled left neighbour lists, RNG). -/
def kuhnRun (R : Bool) (g : BipartiteGraph) (rng : Rng) : GState Rng :=
  (List.range g.leftNbrs.length).foldl
    (fun s v => kuhnStep shuffle R g.leftNbrs.length v s)
    ⟨g.leftNbrs, List.replicate g.rightNbrs.length none, rng⟩

/-- The matching returned by `kuhn`. -/
def kuhn (R : Bool) (g : BipartiteGraph) (rng : Rng) : List (Option Nat) :=
  (kuhnRun shuffle R g rng).matched

/-- The graph as it stands after a `kuhn` call (its left neighbour lists
are the possibly-shuffled ones from the final state; `kuhn` contains no
write to the right neighbour lists). -/
def kuhnGraph (R : Bool) (g : BipartiteGraph) (rng : Rng) : BipartiteGraph :=
  ⟨(kuhnRun shuffle R g rng).adj, g.rightNbrs⟩

end Kuhn

section RandomGraph

/-- Record one decoded edge: push `code % r` onto left list `code / r`
and `code / r` onto right list `code % r` (the two `push` calls in
`BipartiteGraph::random`). -/
def addEdge (r : Nat) (p : List (List Nat) × List (List Nat)) (code : Nat) :
    List (List Nat) × List (List Nat) :=
  (p.1.set (code / r) (p.1.getD (code / r) [] ++ [code % r]),
   p.2.set (code % r) (p.2.getD (code % r) [] ++ [code / r]))

/-- Build the graph from the sampled codes: `l` empty left lists, `r`
empty right lists, record every decoded edge, then sort every neighbour
list ascending (Rust's `sort` on `Vec<usize>`; over `Nat` with `≤` the
sorted result is determined by the multiset, so `insertionSort` is a
faithful model). -/
def buildGraph (l r : Nat) (codes : List Nat) : BipartiteGraph :=
  let p := codes.foldl (addEdge r) (List.replicate l [], List.replicate r [])
  ⟨p.1.map (List.insertionSort (· ≤ ·)), p.2.map (List.insertionSort (· ≤ ·))⟩

variable {Rng : Type} (sample : Rng → Nat → Nat → Option (List Nat × Rng))

/-- Model of `BipartiteGraph::random`: sample `numEdges` distinct codes from
`[0, l*r)` and build the graph.  `sample` models
`rand::seq::index::sample`, which panics when the requested amount
exceeds the range — modelled as `none` (no graph is produced). -/
def random (rng : Rng) (l r numEdges : Nat) : Option (BipartiteGraph × Rng) :=
  match sample rng (l * r) numEdges with
  | none => none
  | some (codes, rng') => some (buildGraph l r codes, rng')

end RandomGraph

/-- Edge `(i, j)` is recorded on the left side. -/
def hasEdge (g : BipartiteGraph) (i j : Nat) : Prop :=
  j ∈ g.leftNbrs.getD i []

instance (g : BipartiteGraph) (i j : Nat) : Decidable (hasEdge g i j) := by
  unfold hasEdge; infer_instance

/-- Well-formed graph: every recorded neighbour index is in range for the
opposite side. -/
structure Wf (g : BipartiteGraph) : Prop where
  leftBound : ∀ l ∈ g.leftNbrs, ∀ j ∈ l, j < g.rightNbrs.length
  rightBound : ∀ l ∈ g.rightNbrs, ∀ i ∈ l, i < g.leftNbrs.length

/-- Validity: `M` is a valid matching vector for `g`: every `Some` entry is a
recorded edge (indexing by right node `j`, entry the left node). -/
def ValidM (g : BipartiteGraph) (M : List (Option Nat)) : Prop :=
  ∀ j v, M.getD j none = some v → j ∈ g.leftNbrs.getD v []

/-- Number of occurrences of left node `w` in the matching vector. -/
def cnt (w : Nat) (M : List (Option Nat)) : Nat :=
  M.count (some w)

/-- Injectivity of a matching vector, phrased by counts: no left node
occupies two right slots. -/
def InjM (M : List (Option Nat)) : Prop :=
  ∀ w, cnt w M ≤ 1

/-- Number of matched pairs (i.e. `Some` entries) of a matching vector. -/
def msize (M : List (Option Nat)) : Nat :=
  M.countP (fun o => o.isSome)

section ListHelpers

variable {α : Type _}

theorem getD_set_same (l : List α) (i : Nat) (a d : α) (h : i < l.length) :
    (l.set i a).getD i d = a := by
  rw [List.getD_eq_getD_get?, List.get?_eq_getElem?, List.getElem?_set_eq_of_lt a h]
  rfl

theorem getD_set_other (l : List α) {i j : Nat} (a : α) (d : α) (h : i ≠ j) :
    (l.set i a).getD j d = l.getD j d := by
  rw [List.getD_eq_getD_get?, List.getD_eq_getD_get?, List.get?_eq_getElem?,
    List.get?_eq_getElem?, List.getElem?_set_ne h]

theorem getD_some_lt {M : List (Option Nat)} {j v : Nat}
    (h : M.getD j none = some v) : j < M.length := by
  by_contra hc
  rw [List.getD_eq_default _ _ (Nat.le_of_not_lt hc)] at h
  exact Option.noConfusion h

theorem getD_two_defaults (l : List α) {i : Nat} (d d' : α) (h : i < l.length) :
    l.getD i d = l.getD i d' := by
  rw [List.getD_eq_getElem l d h, List.getD_eq_getElem l d' h]

theorem count_set_add [BEq α] [LawfulBEq α] [DecidableEq α] :
    ∀ (l : List α) (i : Nat) (a b d : α), i < l.length →
      (l.set i a).count b + (if l.getD i d = b then 1 else 0)
        = l.count b + (if a = b then 1 else 0)
  | [], i, _, _, _, h => absurd h (Nat.not_lt_zero i)
  | x :: t, 0, a, b, d, _ => by
    show (a :: t).count b + _ = (x :: t).count b + _
    rw [List.count_cons, List.count_cons, List.getD_cons_zero]
    simp only [beq_iff_eq]
    omega
  | x :: t, i + 1, a, b, d, h => by
    have ih := count_set_add t i a b d (Nat.lt_of_succ_lt_succ h)
    show (x :: t.set i a).count b + _ = (x :: t).count b + _
    rw [List.count_cons, List.count_cons, List.getD_cons_succ]
    simp only [beq_iff_eq]
    omega

theorem two_getD_le_count [BEq α] [LawfulBEq α] [DecidableEq α] :
    ∀ {l : List α} {j k : Nat} {a d : α}, j ≠ k →
      l.getD j d = a → l.getD k d = a → j < l.length → k < l.length →
      2 ≤ l.count a := by
  intro l
  induction l with
  | nil => intro j k a d _ _ _ hj _; exact absurd hj (Nat.not_lt_zero j)
  | cons x t ih =>
    intro j k a d hjk hj hk hjl hkl
    match j, k with
    | 0, 0 => exact absurd rfl hjk
    | 0, k + 1 =>
      have hklt : k < t.length := Nat.lt_of_succ_lt_succ hkl
      have hx : x = a := hj
      have hmem : a ∈ t := by
        rw [List.getD_cons_succ, List.getD_eq_getElem t d hklt] at hk
        exact hk ▸ List.getElem_mem hklt
      have h1 : 1 ≤ t.count a := List.count_pos_iff.mpr hmem
      rw [List.count_cons, if_pos (beq_iff_eq.mpr hx)]
      omega
    | j + 1, 0 =>
      have hjlt : j < t.length := Nat.lt_of_succ_lt_succ hjl
      have hx : x = a := hk
      have hmem : a ∈ t := by
        rw [List.getD_cons_succ, List.getD_eq_getElem t d hjlt] at hj
        exact hj ▸ List.getElem_mem hjlt
      have h1 : 1 ≤ t.count a := List.count_pos_iff.mpr hmem
      rw [List.count_cons, if_pos (beq_iff_eq.mpr hx)]
      omega
    | j + 1, k + 1 =>
      have hj' : t.getD j d = a := by rw [List.getD_cons_succ] at hj; exact hj
      have hk' : t.getD k d = a := by rw [List.getD_cons_succ] at hk; exact hk
      have h2 := ih (fun h => hjk (congrArg Nat.succ h)) hj' hk'
        (Nat.lt_of_succ_lt_succ hjl) (Nat.lt_of_succ_lt_succ hkl)
      rw [List.count_cons]
      omega

theorem countP_eq_sum_range (p : α → Bool) (d : α) :
    ∀ (l : List α), l.countP p
      = ∑ j ∈ Finset.range l.length, (if p (l.getD j d) then 1 else 0) := by
  intro l
  induction l with
  | nil => simp
  | cons x t ih =>
    rw [List.countP_cons, List.length_cons, Finset.sum_range_succ']
    simp only [List.getD_cons_succ, List.getD_cons_zero]
    rw [← ih]

theorem getD_replicate_self (n : Nat) (d : α) (j : Nat) :
    (List.replicate n d).getD j d = d := by
  rcases Nat.lt_or_ge j n with h | h
  · have h' : j < (List.replicate n d).length := by simpa using h
    rw [List.getD_eq_getElem _ d h']
    exact List.getElem_replicate d h'
  · exact List.getD_eq_default _ _ (by simpa using h)

end ListHelpers

section StepLemmas

variable {Rng : Type}

theorem mem_of_getD {M : List (Option Nat)} {j w : Nat}
    (h : M.getD j none = some w) : some w ∈ M := by
  have hj := getD_some_lt h
  rw [List.getD_eq_getElem M none hj] at h
  exact h ▸ List.getElem_mem hj

theorem getD_of_mem {M : List (Option Nat)} {w : Nat}
    (h : some w ∈ M) : ∃ j, M.getD j none = some w := by
  obtain ⟨i, hi⟩ := List.getElem?_of_mem h
  refine ⟨i, ?_⟩
  rw [List.getD_eq_getD_get?, List.get?_eq_getElem?, hi]
  rfl

/-- Structural facts about one `try_kuhn` call (or one suffix of its
neighbour loop) in frame `v`: lengths are preserved, `used_left` only
grows (so the number of unvisited left nodes never increases), a `false`
result leaves the matching untouched, `Some` entries stay `Some`, and
every left node matched afterwards is either `v` or was matched before. -/
structure Step0 (v : Nat) (b : Bool) (s s' : KState Rng) : Prop where
  mlen : s'.matched.length = s.matched.length
  ulen : s'.used.length = s.used.length
  alen : s'.adj.length = s.adj.length
  umono : ∀ i, s.used.getD i false = true → s'.used.getD i false = true
  ucount : s'.used.count false ≤ s.used.count false
  mfalse : b = false → s'.matched = s.matched
  msome : ∀ j w, s.matched.getD j none = some w →
    ∃ w', s'.matched.getD j none = some w'
  msrc : ∀ j w, s'.matched.getD j none = some w →
    w = v ∨ some w ∈ s.matched

theorem Step0.refl (v : Nat) (b : Bool) (s : KState Rng) : Step0 v b s s :=
  ⟨rfl, rfl, rfl, fun _ h => h, Nat.le_refl _, fun _ => rfl,
    fun j w h => ⟨w, h⟩, fun _ _ h => Or.inr (mem_of_getD h)⟩

/-- Composition when the first part returned `false` (so left the
matching untouched). -/
theorem Step0.comp {v : Nat} {b : Bool} {s s1 s' : KState Rng}
    (h1 : Step0 v false s s1) (h2 : Step0 v b s1 s') : Step0 v b s s' := by
  have hm : s1.matched = s.matched := h1.mfalse rfl
  refine ⟨h2.mlen.trans h1.mlen, h2.ulen.trans h1.ulen, h2.alen.trans h1.alen,
    fun i h => h2.umono i (h1.umono i h), Nat.le_trans h2.ucount h1.ucount,
    fun hb => (h2.mfalse hb).trans hm, ?_, ?_⟩
  · intro j w h
    exact h2.msome j w (hm ▸ h)
  · intro j w h
    rcases h2.msrc j w h with h' | h'
    · exact Or.inl h'
    · exact Or.inr (hm ▸ h')

/-- The effect of the assignment `matched_right[j] = Some(v)` on `Step0`
facts (applied after a successful branch). -/
theorem Step0.setSome {v : Nat} {b : Bool} {s s1 : KState Rng} (j : Nat)
    (h1 : Step0 v b s s1) :
    Step0 v true s { s1 with matched := s1.matched.set j (some v) } := by
  refine ⟨?_, h1.ulen, h1.alen, h1.umono, h1.ucount, fun hb => Bool.noConfusion hb,
    ?_, ?_⟩
  · simpa using h1.mlen
  · intro k w h
    rcases h1.msome k w h with ⟨w', hw'⟩
    by_cases hkj : j = k
    · subst hkj
      have hlen : j < s1.matched.length := getD_some_lt hw'
      exact ⟨v, getD_set_same _ _ _ _ hlen⟩
    · exact ⟨w', by rwa [getD_set_other _ _ _ hkj]⟩
  · intro k w h
    by_cases hkj : j = k
    · subst hkj
      rcases Nat.lt_or_ge j s1.matched.length with hl | hl
      · rw [getD_set_same _ _ _ _ hl] at h
        exact Or.inl (Option.some.inj h).symm
      · rw [List.set_eq_of_length_le hl] at h
        exact h1.msrc j w h
    · rw [getD_set_other _ _ _ hkj] at h
      exact h1.msrc k w h

/-- Lemma `Step0` for the neighbour loop, given it for the recursive call. -/
theorem goNbrs_step0 (rec : Nat → KState Rng → Option (Bool × KState Rng))
    (hrec : ∀ u t b t', rec u t = some (b, t') → Step0 u b t t') (v : Nat) :
    ∀ (l : List Nat) (s : KState Rng) (b : Bool) (s' : KState Rng),
      goNbrs rec v l s = some (b, s') → Step0 v b s s' := by
  intro l
  induction l with
  | nil =>
    intro s b s' h
    rw [goNbrs] at h
    obtain ⟨hb, hs⟩ := Prod.mk.injEq .. ▸ Option.some.inj h
    subst hb; subst hs
    exact Step0.refl v false s
  | cons j rest ih =>
    intro s b s' h
    rw [goNbrs] at h
    split at h
    · -- matched_right[j] is None: assign and succeed
      obtain ⟨hb, hs⟩ := Prod.mk.injEq .. ▸ Option.some.inj h
      subst hb
      rw [← hs]
      exact Step0.setSome j (Step0.refl v true s)
    · -- matched_right[j] = Some u
      rename_i u hm
      split at h
      · exact Option.noConfusion h
      · -- recursive call succeeded
        rename_i s1 hr
        have hstep := hrec u s true s1 hr
        obtain ⟨hb, hs⟩ := Prod.mk.injEq .. ▸ Option.some.inj h
        subst hb
        rw [← hs]
        have hzero : Step0 v true s s1 := by
          refine ⟨hstep.mlen, hstep.ulen, hstep.alen, hstep.umono,
            hstep.ucount, fun hb => Bool.noConfusion hb, hstep.msome, ?_⟩
          intro k w hw
          rcases hstep.msrc k w hw with h' | h'
          · exact Or.inr (h' ▸ mem_of_getD hm)
          · exact Or.inr h'
        exact Step0.setSome j hzero
      · -- recursive call failed: continue with the rest
        rename_i s1 hr
        have hstep := hrec u s false s1 hr
        have hzero : Step0 v false s s1 := by
          refine ⟨hstep.mlen, hstep.ulen, hstep.alen, hstep.umono,
            hstep.ucount, fun _ => hstep.mfalse rfl, hstep.msome, ?_⟩
          intro k w hw
          rcases hstep.msrc k w hw with h' | h'
          · exact Or.inr (h' ▸ mem_of_getD hm)
          · exact Or.inr h'
        exact Step0.comp hzero (ih s1 b s' h)

/-- In the non-early-return branch, the searched node is in range and
currently unvisited. -/
theorem not_used_lt {used : List Bool} {v : Nat}
    (h : ¬ used.getD v true = true) :
    v < used.length ∧ used.getD v false = false := by
  have hv : v < used.length := by
    by_contra hc
    exact h (List.getD_eq_default _ _ (Nat.le_of_not_lt hc))
  have hf : used.getD v false = false := by
    cases hb : used.getD v false with
    | false => rfl
    | true => exact absurd ((getD_two_defaults used true false hv).trans hb) h
  exact ⟨hv, hf⟩

variable (shuffle : Rng → List Nat → List Nat × Rng)

theorem markShuffle_matched (R : Bool) (v : Nat) (s : KState Rng) :
    (markShuffle shuffle R v s).matched = s.matched := by
  cases R <;> rfl

theorem markShuffle_used (R : Bool) (v : Nat) (s : KState Rng) :
    (markShuffle shuffle R v s).used = s.used.set v true := by
  cases R <;> rfl

theorem markShuffle_adj_false (v : Nat) (s : KState Rng) :
    (markShuffle shuffle false v s).adj = s.adj := rfl

theorem markShuffle_rng_false (v : Nat) (s : KState Rng) :
    (markShuffle shuffle false v s).rng = s.rng := rfl

theorem markShuffle_adj_len (R : Bool) (v : Nat) (s : KState Rng) :
    (markShuffle shuffle R v s).adj.length = s.adj.length := by
  cases R <;> simp [markShuffle]

/-- The `Step0` facts for the marking (and optional shuffle) preamble,
together with: afterwards `v` is visited, and the unvisited count went
strictly down. -/
theorem markShuffle_step0 (R : Bool) (v : Nat) (s : KState Rng)
    (h : ¬ s.used.getD v true = true) :
    Step0 v false s (markShuffle shuffle R v s) ∧
      (markShuffle shuffle R v s).used.getD v false = true ∧
      (markShuffle shuffle R v s).used.count false + 1 = s.used.count false := by
  obtain ⟨hvlt, hvfalse⟩ := not_used_lt h
  have hcount : (s.used.set v true).count false + 1 = s.used.count false := by
    have hc := count_set_add s.used v true false false hvlt
    rw [hvfalse] at hc
    simpa using hc
  have humono : ∀ i, s.used.getD i false = true →
      (s.used.set v true).getD i false = true := by
    intro i hi
    by_cases hiv : v = i
    · subst hiv; rw [getD_set_same _ _ _ _ hvlt]
    · rwa [getD_set_other _ _ _ hiv]
  refine ⟨?_, ?_, ?_⟩
  · exact ⟨by rw [markShuffle_matched], by rw [markShuffle_used]; simp,
      by rw [markShuffle_adj_len],
      by rw [markShuffle_used]; exact humono,
      by rw [markShuffle_used]; omega,
      fun _ => by rw [markShuffle_matched],
      fun j w hw => ⟨w, by rw [markShuffle_matched]; exact hw⟩,
      fun j w hw => Or.inr (mem_of_getD (by rwa [markShuffle_matched] at hw))⟩
  · rw [markShuffle_used]; exact getD_set_same _ _ _ _ hvlt
  · rw [markShuffle_used]; exact hcount

/-- Lemma `Step0` for a full `try_kuhn` call, together with: the searched node
ends up visited (when in range). -/
theorem tryKuhn_step0 (R : Bool) :
    ∀ (fuel v : Nat) (s : KState Rng) (b : Bool) (s' : KState Rng),
      tryKuhn shuffle R fuel v s = some (b, s') →
      Step0 v b s s' ∧ (v < s.used.length → s'.used.getD v false = true) := by
  intro fuel
  induction fuel with
  | zero => intro v s b s' h; exact Option.noConfusion h
  | succ fuel ih =>
    intro v s b s' h
    rw [tryKuhn] at h
    by_cases hused : s.used.getD v true = true
    · rw [if_pos hused] at h
      obtain ⟨hb, hs⟩ := Prod.mk.injEq .. ▸ Option.some.inj h
      subst hb; subst hs
      refine ⟨Step0.refl v false s, fun hv => ?_⟩
      rw [getD_two_defaults s.used false true hv]
      exact hused
    · rw [if_neg hused] at h
      obtain ⟨hmark, hvused, _⟩ := markShuffle_step0 shuffle R v s hused
      have hgo := goNbrs_step0 (tryKuhn shuffle R fuel)
        (fun u t b' t' hu => (ih u t b' t' hu).1) v _ _ b s' h
      refine ⟨Step0.comp hmark hgo, fun _ => hgo.umono v hvused⟩

/-- Early return: a `try_kuhn` call on an already-visited node changes
nothing and fails. -/
theorem tryKuhn_early {R : Bool} {fuel u : Nat} {t : KState Rng} {b : Bool}
    {t' : KState Rng} (h : tryKuhn shuffle R fuel u t = some (b, t'))
    (hu : t.used.getD u true = true) : b = false ∧ t' = t := by
  cases fuel with
  | zero => exact Option.noConfusion h
  | succ fuel =>
    rw [tryKuhn, if_pos hu] at h
    obtain ⟨hb, ht⟩ := Prod.mk.injEq .. ▸ Option.some.inj h
    exact ⟨hb.symm, ht.symm⟩

/-- Fixed slots, neighbour-loop level: a right slot matched to an
already-visited left node is never reassigned. -/
theorem goNbrs_fix (rec : Nat → KState Rng → Option (Bool × KState Rng))
    (hrec_step : ∀ u t b t', rec u t = some (b, t') → Step0 u b t t')
    (hrec_early : ∀ u t b t', rec u t = some (b, t') →
      t.used.getD u true = true → b = false ∧ t' = t)
    (hrec_fix : ∀ u t b t', rec u t = some (b, t') →
      ∀ j p, t.matched.getD j none = some p → t.used.getD p false = true →
        t'.matched.getD j none = some p)
    (v : Nat) :
    ∀ (l : List Nat) (s : KState Rng) (b : Bool) (s' : KState Rng),
      goNbrs rec v l s = some (b, s') →
      ∀ j p, s.matched.getD j none = some p → s.used.getD p false = true →
        s'.matched.getD j none = some p := by
  intro l
  induction l with
  | nil =>
    intro s b s' h j p hj hp
    rw [goNbrs] at h
    obtain ⟨-, hs⟩ := Prod.mk.injEq .. ▸ Option.some.inj h
    rw [← hs]
    exact hj
  | cons j0 rest ih =>
    intro s b s' h j p hj hp
    rw [goNbrs] at h
    split at h
    · rename_i hm
      obtain ⟨-, hs⟩ := Prod.mk.injEq .. ▸ Option.some.inj h
      rw [← hs]
      have hne : j0 ≠ j := by
        intro hc; subst hc; rw [hm] at hj; exact Option.noConfusion hj
      show (s.matched.set j0 (some v)).getD j none = some p
      rwa [getD_set_other _ _ _ hne]
    · rename_i u hm
      split at h
      · exact Option.noConfusion h
      · rename_i s1 hr
        obtain ⟨-, hs⟩ := Prod.mk.injEq .. ▸ Option.some.inj h
        rw [← hs]
        have hne : j0 ≠ j := by
          intro hc; subst hc
          rw [hm] at hj
          have hup : u = p := Option.some.inj hj
          have hplt : p < s.used.length := by
            by_contra hc2
            rw [List.getD_eq_default _ _ (Nat.le_of_not_lt hc2)] at hp
            exact Bool.noConfusion hp
          have hpu : s.used.getD u true = true := by
            rw [hup, getD_two_defaults s.used true false hplt]
            exact hp
          exact Bool.noConfusion (hrec_early u s true s1 hr hpu).1
        show (s1.matched.set j0 (some v)).getD j none = some p
        rw [getD_set_other _ _ _ hne]
        exact hrec_fix u s true s1 hr j p hj hp
      · rename_i s1 hr
        have hstep := hrec_step u s false s1 hr
        exact ih s1 b s' h j p
          (by rw [hstep.mfalse rfl]; exact hj) (hstep.umono p hp)

/-- Fixed slots for a full `try_kuhn` call: a right slot matched to a
visited left node, or to the currently searched node itself, is never
reassigned. -/
theorem tryKuhn_fix (R : Bool) :
    ∀ (fuel v : Nat) (s : KState Rng) (b : Bool) (s' : KState Rng),
      tryKuhn shuffle R fuel v s = some (b, s') →
      ∀ j p, s.matched.getD j none = some p →
        (s.used.getD p false = true ∨ p = v) →
        s'.matched.getD j none = some p := by
  intro fuel
  induction fuel with
  | zero => intro v s b s' h; exact Option.noConfusion h
  | succ fuel ih =>
    intro v s b s' h j p hj hp
    rw [tryKuhn] at h
    by_cases hused : s.used.getD v true = true
    · rw [if_pos hused] at h
      obtain ⟨-, hs⟩ := Prod.mk.injEq .. ▸ Option.some.inj h
      rw [← hs]
      exact hj
    · rw [if_neg hused] at h
      obtain ⟨hmark, hvused, -⟩ := markShuffle_step0 shuffle R v s hused
      have hj2 : (markShuffle shuffle R v s).matched.getD j none = some p := by
        rw [markShuffle_matched]; exact hj
      have hp2 : (markShuffle shuffle R v s).used.getD p false = true := by
        rcases hp with hp | hp
        · exact hmark.umono p hp
        · subst hp; exact hvused
      exact goNbrs_fix (tryKuhn shuffle R fuel)
        (fun u t b' t' hu => (tryKuhn_step0 shuffle R fuel u t b' t' hu).1)
        (fun u t b' t' hu hu2 => tryKuhn_early shuffle hu hu2)
        (fun u t b' t' hu j' p' hj' hp' => ih u t b' t' hu j' p' hj' (Or.inl hp'))
        v _ _ b s' h j p hj2 hp2

/-- Fuel sufficiency, neighbour-loop level. -/
theorem goNbrs_fuel (rec : Nat → KState Rng → Option (Bool × KState Rng))
    (hrec_step : ∀ u t b t', rec u t = some (b, t') → Step0 u b t t')
    (n : Nat) (hrec_some : ∀ u t, t.used.count false < n → (rec u t).isSome)
    (v : Nat) :
    ∀ (l : List Nat) (s : KState Rng), s.used.count false < n →
      (goNbrs rec v l s).isSome := by
  intro l
  induction l with
  | nil => intro s _; rw [goNbrs]; rfl
  | cons j0 rest ih =>
    intro s hs
    rw [goNbrs]
    split
    · rfl
    · rename_i u hm
      cases hr : rec u s with
      | none =>
        have := hrec_some u s hs
        rw [hr] at this
        exact Bool.noConfusion this
      | some p =>
        obtain ⟨b1, s1⟩ := p
        cases b1 with
        | true => rfl
        | false =>
          have hstep := hrec_step u s false s1 hr
          exact ih s1 (Nat.lt_of_le_of_lt hstep.ucount hs)

/-- Fuel sufficiency: a `try_kuhn` call with fuel exceeding the number of
unvisited left nodes cannot run out of fuel.  (In particular the
recursion in the program terminates: each recursive level visits a fresh
left node.) -/
theorem tryKuhn_fuel (R : Bool) :
    ∀ (fuel v : Nat) (s : KState Rng), s.used.count false < fuel →
      (tryKuhn shuffle R fuel v s).isSome := by
  intro fuel
  induction fuel with
  | zero => intro v s h; exact absurd h (Nat.not_lt_zero _)
  | succ fuel ih =>
    intro v s hs
    rw [tryKuhn]
    by_cases hused : s.used.getD v true = true
    · rw [if_pos hused]; rfl
    · rw [if_neg hused]
      obtain ⟨-, -, hcount⟩ := markShuffle_step0 shuffle R v s hused
      exact goNbrs_fuel (tryKuhn shuffle R fuel)
        (fun u t b' t' hu => (tryKuhn_step0 shuffle R fuel u t b' t' hu).1)
        fuel ih v _ _ (by omega)

/-- Every neighbour list of the evolving state is a permutation of the
corresponding neighbour list of the graph `g` (shuffling only reorders). -/
def AdjP (g : BipartiteGraph) (s : KState Rng) : Prop :=
  ∀ i, (s.adj.getD i []).Perm (g.leftNbrs.getD i [])

variable {shuffle : Rng → List Nat → List Nat × Rng}

theorem markShuffle_adj_perm (hshuffle : ∀ r l, (shuffle r l).1.Perm l)
    (R : Bool) (v : Nat) (s : KState Rng) :
    ∀ i, ((markShuffle shuffle R v s).adj.getD i []).Perm (s.adj.getD i []) := by
  intro i
  cases R with
  | false => rw [markShuffle_adj_false]
  | true =>
    show ((s.adj.set v (shuffle s.rng (s.adj.getD v [])).1).getD i []).Perm _
    by_cases hvi : v = i
    · subst hvi
      rcases Nat.lt_or_ge v s.adj.length with hlt | hge
      · rw [getD_set_same _ _ _ _ hlt]
        exact hshuffle s.rng (s.adj.getD v [])
      · rw [List.set_eq_of_length_le hge]
    · rw [getD_set_other _ _ _ hvi]

theorem goNbrs_adj (rec : Nat → KState Rng → Option (Bool × KState Rng))
    (hrec : ∀ u t b t', rec u t = some (b, t') →
      ∀ i, (t'.adj.getD i []).Perm (t.adj.getD i [])) (v : Nat) :
    ∀ (l : List Nat) (s : KState Rng) (b : Bool) (s' : KState Rng),
      goNbrs rec v l s = some (b, s') →
      ∀ i, (s'.adj.getD i []).Perm (s.adj.getD i []) := by
  intro l
  induction l with
  | nil =>
    intro s b s' h i
    rw [goNbrs] at h
    obtain ⟨-, hs⟩ := Prod.mk.injEq .. ▸ Option.some.inj h
    rw [← hs]
  | cons j0 rest ih =>
    intro s b s' h i
    rw [goNbrs] at h
    split at h
    · obtain ⟨-, hs⟩ := Prod.mk.injEq .. ▸ Option.some.inj h
      rw [← hs]
    · rename_i u hm
      split at h
      · exact Option.noConfusion h
      · rename_i s1 hr
        obtain ⟨-, hs⟩ := Prod.mk.injEq .. ▸ Option.some.inj h
        rw [← hs]
        exact hrec u s true s1 hr i
      · rename_i s1 hr
        exact (ih s1 b s' h i).trans (hrec u s false s1 hr i)

/-- Calls to `try_kuhn` only reorder neighbour lists (when the shuffle output is
a permutation of its input). -/
theorem tryKuhn_adj (hshuffle : ∀ r l, (shuffle r l).1.Perm l) (R : Bool) :
    ∀ (fuel v : Nat) (s : KState Rng) (b : Bool) (s' : KState Rng),
      tryKuhn shuffle R fuel v s = some (b, s') →
      ∀ i, (s'.adj.getD i []).Perm (s.adj.getD i []) := by
  intro fuel
  induction fuel with
  | zero => intro v s b s' h; exact Option.noConfusion h
  | succ fuel ih =>
    intro v s b s' h i
    rw [tryKuhn] at h
    by_cases hused : s.used.getD v true = true
    · rw [if_pos hused] at h
      obtain ⟨-, hs⟩ := Prod.mk.injEq .. ▸ Option.some.inj h
      rw [← hs]
    · rw [if_neg hused] at h
      exact (goNbrs_adj (tryKuhn shuffle R fuel) ih v _ _ b s' h i).trans
        (markShuffle_adj_perm hshuffle R v s i)

/-- Replace the RNG component of a state. -/
def setRng (r : Rng) (s : KState Rng) : KState Rng :=
  { s with rng := r }

theorem goNbrs_rng_irrel (rec : Nat → KState Rng → Option (Bool × KState Rng))
    (hrec_some : ∀ u t b t' r2, rec u t = some (b, t') →
      rec u (setRng r2 t) = some (b, setRng r2 t'))
    (hrec_none : ∀ u t r2, rec u t = none → rec u (setRng r2 t) = none)
    (v : Nat) :
    ∀ (l : List Nat) (s : KState Rng) (r2 : Rng),
      (∀ b s', goNbrs rec v l s = some (b, s') →
        goNbrs rec v l (setRng r2 s) = some (b, setRng r2 s')) ∧
      (goNbrs rec v l s = none → goNbrs rec v l (setRng r2 s) = none) := by
  intro l
  induction l with
  | nil =>
    intro s r2
    constructor
    · intro b s' h
      rw [goNbrs] at h
      obtain ⟨hb, hs⟩ := Prod.mk.injEq .. ▸ Option.some.inj h
      subst hb; subst hs
      rfl
    · intro h
      rw [goNbrs] at h
      exact Option.noConfusion h
  | cons j0 rest ih =>
    intro s r2
    have hunf : goNbrs rec v (j0 :: rest) (setRng r2 s)
        = match s.matched.getD j0 none with
          | none => some (true, { setRng r2 s with matched := s.matched.set j0 (some v) })
          | some u =>
            match rec u (setRng r2 s) with
            | none => none
            | some (true, s') =>
              some (true, { s' with matched := s'.matched.set j0 (some v) })
            | some (false, s') => goNbrs rec v rest s' := by
      rw [goNbrs]
      rfl
    constructor
    · intro b s' h
      rw [goNbrs] at h
      rw [hunf]
      split at h
      · obtain ⟨hb, hs⟩ := Prod.mk.injEq .. ▸ Option.some.inj h
        subst hb
        rw [← hs]
        rfl
      · rename_i u hm
        split at h
        · exact Option.noConfusion h
        · rename_i s1 hr
          rw [hrec_some u s true s1 r2 hr]
          obtain ⟨hb, hs⟩ := Prod.mk.injEq .. ▸ Option.some.inj h
          subst hb
          rw [← hs]
          rfl
        · rename_i s1 hr
          rw [hrec_some u s false s1 r2 hr]
          exact (ih s1 r2).1 b s' h
    · intro h
      rw [goNbrs] at h
      rw [hunf]
      split at h
      · exact Option.noConfusion h
      · rename_i u hm
        split at h
        · rename_i hr
          rw [hrec_none u s r2 hr]
        · rename_i s1 hr
          exact Option.noConfusion h
        · rename_i s1 hr
          rw [hrec_some u s false s1 r2 hr]
          exact (ih s1 r2).2 h

/-- With the randomized flag off, `try_kuhn` never consults the RNG: a
run started from any replacement RNG value is the same run with that RNG
value carried along unchanged. -/
theorem tryKuhn_rng_irrel :
    ∀ (fuel v : Nat) (s : KState Rng) (r2 : Rng),
      (∀ b s', tryKuhn shuffle false fuel v s = some (b, s') →
        tryKuhn shuffle false fuel v (setRng r2 s) = some (b, setRng r2 s')) ∧
      (tryKuhn shuffle false fuel v s = none →
        tryKuhn shuffle false fuel v (setRng r2 s) = none) := by
  intro fuel
  induction fuel with
  | zero =>
    intro v s r2
    exact ⟨fun b s' h => Option.noConfusion h, fun _ => rfl⟩
  | succ fuel ih =>
    intro v s r2
    have husedEq : (setRng r2 s).used = s.used := rfl
    have hmk : markShuffle shuffle false v (setRng r2 s)
        = setRng r2 (markShuffle shuffle false v s) := rfl
    have hadjEq : (setRng r2 (markShuffle shuffle false v s)).adj.getD v []
        = (markShuffle shuffle false v s).adj.getD v [] := rfl
    constructor
    · intro b s' h
      rw [tryKuhn] at h
      rw [tryKuhn, husedEq]
      by_cases hused : s.used.getD v true = true
      · rw [if_pos hused] at h
        rw [if_pos hused]
        obtain ⟨hb, hs⟩ := Prod.mk.injEq .. ▸ Option.some.inj h
        subst hb
        rw [← hs]
      · rw [if_neg hused] at h
        rw [if_neg hused, hmk, hadjEq]
        exact (goNbrs_rng_irrel (tryKuhn shuffle false fuel)
          (fun u t b' t' r2' hu => ((ih u t r2').1 b' t' hu))
          (fun u t r2' hu => ((ih u t r2').2 hu)) v _ _ r2).1 b s' h
    · intro h
      rw [tryKuhn] at h
      rw [tryKuhn, husedEq]
      by_cases hused : s.used.getD v true = true
      · rw [if_pos hused] at h
        exact Option.noConfusion h
      · rw [if_neg hused] at h
        rw [if_neg hused, hmk, hadjEq]
        exact (goNbrs_rng_irrel (tryKuhn shuffle false fuel)
          (fun u t b' t' r2' hu => ((ih u t r2').1 b' t' hu))
          (fun u t r2' hu => ((ih u t r2').2 hu)) v _ _ r2).2 h

/-- With the randomized flag off, `try_kuhn` leaves the RNG and every
neighbour list untouched. -/
theorem tryKuhn_rngadj_false :
    ∀ (fuel v : Nat) (s : KState Rng) (b : Bool) (s' : KState Rng),
      tryKuhn shuffle false fuel v s = some (b, s') →
      s'.rng = s.rng ∧ s'.adj = s.adj := by
  have hgo : ∀ (rec : Nat → KState Rng → Option (Bool × KState Rng)),
      (∀ u t b t', rec u t = some (b, t') → t'.rng = t.rng ∧ t'.adj = t.adj) →
      ∀ (v : Nat) (l : List Nat) (s : KState Rng) (b : Bool) (s' : KState Rng),
        goNbrs rec v l s = some (b, s') → s'.rng = s.rng ∧ s'.adj = s.adj := by
    intro rec hrec v l
    induction l with
    | nil =>
      intro s b s' h
      rw [goNbrs] at h
      obtain ⟨-, hs⟩ := Prod.mk.injEq .. ▸ Option.some.inj h
      rw [← hs]
      exact ⟨rfl, rfl⟩
    | cons j0 rest ih =>
      intro s b s' h
      rw [goNbrs] at h
      split at h
      · obtain ⟨-, hs⟩ := Prod.mk.injEq .. ▸ Option.some.inj h
        rw [← hs]
        exact ⟨rfl, rfl⟩
      · rename_i u hm
        split at h
        · exact Option.noConfusion h
        · rename_i s1 hr
          obtain ⟨-, hs⟩ := Prod.mk.injEq .. ▸ Option.some.inj h
          rw [← hs]
          exact hrec u s true s1 hr
        · rename_i s1 hr
          obtain ⟨h1, h2⟩ := hrec u s false s1 hr
          obtain ⟨h3, h4⟩ := ih s1 b s' h
          exact ⟨h3.trans h1, h4.trans h2⟩
  intro fuel
  induction fuel with
  | zero => intro v s b s' h; exact Option.noConfusion h
  | succ fuel ih =>
    intro v s b s' h
    rw [tryKuhn] at h
    by_cases hused : s.used.getD v true = true
    · rw [if_pos hused] at h
      obtain ⟨-, hs⟩ := Prod.mk.injEq .. ▸ Option.some.inj h
      rw [← hs]
      exact ⟨rfl, rfl⟩
    · rw [if_neg hused] at h
      obtain ⟨h1, h2⟩ := hgo (tryKuhn shuffle false fuel) ih v _ _ b s' h
      exact ⟨h1.trans (markShuffle_rng_false shuffle v s),
        h2.trans (markShuffle_adj_false shuffle v s)⟩

/-- Every neighbour index in the state is a valid right-slot index. -/
def AdjB (s : KState Rng) : Prop :=
  ∀ i, ∀ x ∈ s.adj.getD i [], x < s.matched.length

/-- Count bookkeeping of a successful `try_kuhn` call, neighbour-loop
level: the searched node gains exactly one slot, all other left nodes
keep their number of slots. -/
theorem goNbrs_cnt (rec : Nat → KState Rng → Option (Bool × KState Rng))
    (hrec_step : ∀ u t b t', rec u t = some (b, t') → Step0 u b t t')
    (hrec_early : ∀ u t b t', rec u t = some (b, t') →
      t.used.getD u true = true → b = false ∧ t' = t)
    (hrec_fix : ∀ u t b t', rec u t = some (b, t') →
      ∀ j p, t.matched.getD j none = some p →
        (t.used.getD p false = true ∨ p = u) → t'.matched.getD j none = some p)
    (hrec_adj : ∀ u t b t', rec u t = some (b, t') →
      ∀ i, (t'.adj.getD i []).Perm (t.adj.getD i []))
    (hrec_cnt : ∀ u t t', rec u t = some (true, t') → AdjB t →
      (∀ w, w ≠ u → cnt w t'.matched = cnt w t.matched) ∧
        cnt u t'.matched = cnt u t.matched + 1)
    (v : Nat) :
    ∀ (l : List Nat) (s : KState Rng) (s' : KState Rng),
      goNbrs rec v l s = some (true, s') →
      AdjB s → (∀ x ∈ l, x < s.matched.length) → s.used.getD v false = true →
      (∀ w, w ≠ v → cnt w s'.matched = cnt w s.matched) ∧
        cnt v s'.matched = cnt v s.matched + 1 := by
  intro l
  induction l with
  | nil =>
    intro s s' h
    rw [goNbrs] at h
    obtain ⟨hb, -⟩ := Prod.mk.injEq .. ▸ Option.some.inj h
    exact Bool.noConfusion hb
  | cons j0 rest ih =>
    intro s s' h hadjb hsnap hvused
    have hj0lt : j0 < s.matched.length := hsnap j0 (List.mem_cons_self j0 rest)
    rw [goNbrs] at h
    split at h
    · rename_i hm
      obtain ⟨-, hs⟩ := Prod.mk.injEq .. ▸ Option.some.inj h
      rw [← hs]
      constructor
      · intro w hw
        have hca := count_set_add s.matched j0 (some v) (some w) none hj0lt
        rw [hm, if_neg (by intro hc; exact Option.noConfusion hc),
          if_neg (by intro hc; exact hw (Option.some.inj hc).symm)] at hca
        show (s.matched.set j0 (some v)).count (some w) = s.matched.count (some w)
        omega
      · have hca := count_set_add s.matched j0 (some v) (some v) none hj0lt
        rw [hm, if_neg (by intro hc; exact Option.noConfusion hc), if_pos rfl] at hca
        show (s.matched.set j0 (some v)).count (some v) = s.matched.count (some v) + 1
        omega
    · rename_i u hm
      split at h
      · exact Option.noConfusion h
      · rename_i s1 hr
        obtain ⟨-, hs⟩ := Prod.mk.injEq .. ▸ Option.some.inj h
        rw [← hs]
        have hvlt : v < s.used.length := by
          by_contra hc
          rw [List.getD_eq_default _ _ (Nat.le_of_not_lt hc)] at hvused
          exact Bool.noConfusion hvused
        have huv : u ≠ v := by
          intro hc
          subst hc
          have hu : s.used.getD u true = true := by
            rw [getD_two_defaults s.used true false hvlt]
            exact hvused
          exact Bool.noConfusion (hrec_early u s true s1 hr hu).1
        obtain ⟨hcw, hcu⟩ := hrec_cnt u s s1 hr hadjb
        have hfix : s1.matched.getD j0 none = some u :=
          hrec_fix u s true s1 hr j0 u hm (Or.inr rfl)
        have hj0lt1 : j0 < s1.matched.length := by
          rw [(hrec_step u s true s1 hr).mlen]
          exact hj0lt
        constructor
        · intro w hw
          have hca := count_set_add s1.matched j0 (some v) (some w) none hj0lt1
          rw [hfix] at hca
          by_cases hwu : w = u
          · subst hwu
            rw [if_pos rfl, if_neg (by intro hc; exact hw (Option.some.inj hc).symm)] at hca
            have hcu2 := hcu
            simp only [cnt] at hcu2
            show (s1.matched.set j0 (some v)).count (some w) = s.matched.count (some w)
            omega
          · rw [if_neg (by intro hc; exact hwu (Option.some.inj hc).symm),
              if_neg (by intro hc; exact hw (Option.some.inj hc).symm)] at hca
            have hcw2 := hcw w (fun hc => hwu hc)
            simp only [cnt] at hcw2
            show (s1.matched.set j0 (some v)).count (some w) = s.matched.count (some w)
            omega
        · have hca := count_set_add s1.matched j0 (some v) (some v) none hj0lt1
          rw [hfix, if_neg (by intro hc; exact huv (Option.some.inj hc)), if_pos rfl] at hca
          have hcw2 := hcw v (fun hc => huv hc.symm)
          simp only [cnt] at hcw2
          show (s1.matched.set j0 (some v)).count (some v) = s.matched.count (some v) + 1
          omega
      · rename_i s1 hr
        have hstep := hrec_step u s false s1 hr
        have hmeq : s1.matched = s.matched := hstep.mfalse rfl
        have hadjb1 : AdjB s1 := by
          intro i x hx
          rw [hmeq]
          exact hadjb i x ((hrec_adj u s false s1 hr i).mem_iff.mp hx)
        obtain ⟨h1, h2⟩ := ih s1 s' h hadjb1
          (fun x hx => by rw [hmeq]; exact hsnap x (List.mem_cons_of_mem j0 hx))
          (hstep.umono v hvused)
        rw [hmeq] at h1 h2
        exact ⟨h1, h2⟩

/-- Count bookkeeping of a successful `try_kuhn` call. -/
theorem tryKuhn_cnt (hshuffle : ∀ r l, (shuffle r l).1.Perm l) (R : Bool) :
    ∀ (fuel v : Nat) (s : KState Rng) (s' : KState Rng),
      tryKuhn shuffle R fuel v s = some (true, s') → AdjB s →
      (∀ w, w ≠ v → cnt w s'.matched = cnt w s.matched) ∧
        cnt v s'.matched = cnt v s.matched + 1 := by
  intro fuel
  induction fuel with
  | zero => intro v s s' h; exact Option.noConfusion h
  | succ fuel ih =>
    intro v s s' h hadjb
    rw [tryKuhn] at h
    by_cases hused : s.used.getD v true = true
    · rw [if_pos hused] at h
      obtain ⟨hb, -⟩ := Prod.mk.injEq .. ▸ Option.some.inj h
      exact Bool.noConfusion hb
    · rw [if_neg hused] at h
      obtain ⟨hmark, hvused, -⟩ := markShuffle_step0 shuffle R v s hused
      have hmeq : (markShuffle shuffle R v s).matched = s.matched :=
        markShuffle_matched shuffle R v s
      have hadjb2 : AdjB (markShuffle shuffle R v s) := by
        intro i x hx
        rw [hmeq]
        exact hadjb i x ((markShuffle_adj_perm hshuffle R v s i).mem_iff.mp hx)
      obtain ⟨h1, h2⟩ := goNbrs_cnt (tryKuhn shuffle R fuel)
        (fun u t b' t' hu => (tryKuhn_step0 shuffle R fuel u t b' t' hu).1)
        (fun u t b' t' hu hu2 => tryKuhn_early shuffle hu hu2)
        (fun u t b' t' hu j' p' hj' hp' =>
          tryKuhn_fix shuffle R fuel u t b' t' hu j' p' hj' hp')
        (fun u t b' t' hu => tryKuhn_adj hshuffle R fuel u t b' t' hu)
        (fun u t t' hu ha => ih u t t' hu ha)
        v _ _ s' h hadjb2
        (fun x hx => by
          rw [hmeq]
          exact hadjb v x ((markShuffle_adj_perm hshuffle R v s v).mem_iff.mp hx))
        hvused
      rw [hmeq] at h1 h2
      exact ⟨h1, h2⟩

/-- Setting a slot to a recorded edge preserves validity. -/
theorem ValidM_set {g : BipartiteGraph} {M : List (Option Nat)} {j0 v : Nat}
    (hval : ValidM g M) (hj0 : j0 ∈ g.leftNbrs.getD v []) :
    ValidM g (M.set j0 (some v)) := by
  intro j w hw
  by_cases hj : j0 = j
  · subst hj
    rcases Nat.lt_or_ge j0 M.length with hlt | hge
    · rw [getD_set_same _ _ _ _ hlt] at hw
      cases Option.some.inj hw
      exact hj0
    · rw [List.set_eq_of_length_le hge] at hw
      exact hval _ _ hw
  · rw [getD_set_other _ _ _ hj] at hw
    exact hval _ _ hw

theorem goNbrs_valid (g : BipartiteGraph)
    (rec : Nat → KState Rng → Option (Bool × KState Rng))
    (hrec_adj : ∀ u t b t', rec u t = some (b, t') →
      ∀ i, (t'.adj.getD i []).Perm (t.adj.getD i []))
    (hrec_valid : ∀ u t b t', rec u t = some (b, t') → AdjP g t →
      ValidM g t.matched → ValidM g t'.matched)
    (v : Nat) :
    ∀ (l : List Nat) (s : KState Rng) (b : Bool) (s' : KState Rng),
      goNbrs rec v l s = some (b, s') → AdjP g s →
      (∀ x ∈ l, x ∈ g.leftNbrs.getD v []) →
      ValidM g s.matched → ValidM g s'.matched := by
  intro l
  induction l with
  | nil =>
    intro s b s' h hadjp hsnap hval
    rw [goNbrs] at h
    obtain ⟨-, hs⟩ := Prod.mk.injEq .. ▸ Option.some.inj h
    rw [← hs]
    exact hval
  | cons j0 rest ih =>
    intro s b s' h hadjp hsnap hval
    have hj0 : j0 ∈ g.leftNbrs.getD v [] := hsnap j0 (List.mem_cons_self j0 rest)
    rw [goNbrs] at h
    split at h
    · obtain ⟨-, hs⟩ := Prod.mk.injEq .. ▸ Option.some.inj h
      rw [← hs]
      exact ValidM_set hval hj0
    · rename_i u hm
      split at h
      · exact Option.noConfusion h
      · rename_i s1 hr
        obtain ⟨-, hs⟩ := Prod.mk.injEq .. ▸ Option.some.inj h
        rw [← hs]
        exact ValidM_set (hrec_valid u s true s1 hr hadjp hval) hj0
      · rename_i s1 hr
        exact ih s1 b s' h
          (fun i => (hrec_adj u s false s1 hr i).trans (hadjp i))
          (fun x hx => hsnap x (List.mem_cons_of_mem j0 hx))
          (hrec_valid u s false s1 hr hadjp hval)

/-- Calls to `try_kuhn` only ever record matches along recorded edges. -/
theorem tryKuhn_valid (hshuffle : ∀ r l, (shuffle r l).1.Perm l)
    (g : BipartiteGraph) (R : Bool) :
    ∀ (fuel v : Nat) (s : KState Rng) (b : Bool) (s' : KState Rng),
      tryKuhn shuffle R fuel v s = some (b, s') → AdjP g s →
      ValidM g s.matched → ValidM g s'.matched := by
  intro fuel
  induction fuel with
  | zero => intro v s b s' h; exact Option.noConfusion h
  | succ fuel ih =>
    intro v s b s' h hadjp hval
    rw [tryKuhn] at h
    by_cases hused : s.used.getD v true = true
    · rw [if_pos hused] at h
      obtain ⟨-, hs⟩ := Prod.mk.injEq .. ▸ Option.some.inj h
      rw [← hs]
      exact hval
    · rw [if_neg hused] at h
      have hadjp2 : AdjP g (markShuffle shuffle R v s) := fun i =>
        (markShuffle_adj_perm hshuffle R v s i).trans (hadjp i)
      exact goNbrs_valid g (tryKuhn shuffle R fuel)
        (fun u t b' t' hu => tryKuhn_adj hshuffle R fuel u t b' t' hu)
        (fun u t b' t' hu hp hv => ih u t b' t' hu hp hv)
        v _ _ b s' h hadjp2
        (fun x hx => (hadjp2 v).mem_iff.mp hx)
        (by rw [markShuffle_matched]; exact hval)

/-- Every matched left node is a valid index into `used_left`. -/
def MBound (s : KState Rng) : Prop :=
  ∀ j w, s.matched.getD j none = some w → w < s.used.length

/-- Closedness: `U` is closed for `g` and the matching `M`: every neighbour of a node
of `U` is matched, to a node of `U`.  (A failed search's visited set is
closed; a closed set can never be re-augmented.) -/
def Closed (g : BipartiteGraph) (U : Nat → Prop) (M : List (Option Nat)) : Prop :=
  ∀ u, U u → ∀ j, j ∈ g.leftNbrs.getD u [] → ∃ p, M.getD j none = some p ∧ U p

/-- A failed search's newly visited nodes have all their neighbours
matched, to visited nodes — neighbour-loop level. -/
theorem goNbrs_failclose (g : BipartiteGraph)
    (rec : Nat → KState Rng → Option (Bool × KState Rng))
    (hrec_step : ∀ u t b t', rec u t = some (b, t') → Step0 u b t t')
    (hrec_adj : ∀ u t b t', rec u t = some (b, t') →
      ∀ i, (t'.adj.getD i []).Perm (t.adj.getD i []))
    (hrec_vmark : ∀ u t b t', rec u t = some (b, t') →
      u < t.used.length → t'.used.getD u false = true)
    (hrec_fc : ∀ u t t', rec u t = some (false, t') → AdjP g t → MBound t →
      ∀ u', t'.used.getD u' false = true → t.used.getD u' false = true ∨
        ∀ j, j ∈ g.leftNbrs.getD u' [] →
          ∃ p, t.matched.getD j none = some p ∧ t'.used.getD p false = true)
    (v : Nat) :
    ∀ (l : List Nat) (s : KState Rng) (s' : KState Rng),
      goNbrs rec v l s = some (false, s') → AdjP g s → MBound s →
      (∀ u', s'.used.getD u' false = true → s.used.getD u' false = true ∨
        ∀ j, j ∈ g.leftNbrs.getD u' [] →
          ∃ p, s.matched.getD j none = some p ∧ s'.used.getD p false = true) ∧
      (∀ x ∈ l, ∃ p, s.matched.getD x none = some p ∧
        s'.used.getD p false = true) := by
  intro l
  induction l with
  | nil =>
    intro s s' h _ _
    rw [goNbrs] at h
    obtain ⟨-, hs⟩ := Prod.mk.injEq .. ▸ Option.some.inj h
    rw [← hs]
    exact ⟨fun u' hu' => Or.inl hu', fun x hx => absurd hx (List.not_mem_nil x)⟩
  | cons j0 rest ih =>
    intro s s' h hadjp hmb
    rw [goNbrs] at h
    split at h
    · obtain ⟨hb, -⟩ := Prod.mk.injEq .. ▸ Option.some.inj h
      exact Bool.noConfusion hb
    · rename_i u hm
      split at h
      · exact Option.noConfusion h
      · obtain ⟨hb, -⟩ := Prod.mk.injEq .. ▸ Option.some.inj h
        exact Bool.noConfusion hb
      · rename_i s1 hr
        have hstep := hrec_step u s false s1 hr
        have hmeq : s1.matched = s.matched := hstep.mfalse rfl
        have hadjp1 : AdjP g s1 := fun i =>
          (hrec_adj u s false s1 hr i).trans (hadjp i)
        have hmb1 : MBound s1 := by
          intro j w hw
          rw [hmeq] at hw
          rw [hstep.ulen]
          exact hmb j w hw
        have hgoStep := goNbrs_step0 rec hrec_step v rest s1 false s' h
        have humark : s1.used.getD u false = true :=
          hrec_vmark u s false s1 hr (hmb j0 u hm)
        obtain ⟨ih1, ih2⟩ := ih s1 s' h hadjp1 hmb1
        constructor
        · intro u' hu'
          rcases ih1 u' hu' with h1 | h1
          · rcases hrec_fc u s s1 hr hadjp hmb u' h1 with h2 | h2
            · exact Or.inl h2
            · refine Or.inr (fun j hj => ?_)
              obtain ⟨p, hp1, hp2⟩ := h2 j hj
              exact ⟨p, hp1, hgoStep.umono p hp2⟩
          · refine Or.inr (fun j hj => ?_)
            obtain ⟨p, hp1, hp2⟩ := h1 j hj
            rw [hmeq] at hp1
            exact ⟨p, hp1, hp2⟩
        · intro x hx
          rcases List.mem_cons.mp hx with hx0 | hx0
          · subst hx0
            exact ⟨u, hm, hgoStep.umono u humark⟩
          · obtain ⟨p, hp1, hp2⟩ := ih2 x hx0
            rw [hmeq] at hp1
            exact ⟨p, hp1, hp2⟩

/-- A failed `try_kuhn` search: every newly visited left node has all its
neighbours matched, to left nodes visited at the end of the search.  (The
visited set of a failed search is a closed-set certificate.) -/
theorem tryKuhn_failclose (hshuffle : ∀ r l, (shuffle r l).1.Perm l)
    (g : BipartiteGraph) (R : Bool) :
    ∀ (fuel v : Nat) (s : KState Rng) (s' : KState Rng),
      tryKuhn shuffle R fuel v s = some (false, s') → AdjP g s → MBound s →
      ∀ u', s'.used.getD u' false = true → s.used.getD u' false = true ∨
        ∀ j, j ∈ g.leftNbrs.getD u' [] →
          ∃ p, s.matched.getD j none = some p ∧ s'.used.getD p false = true := by
  intro fuel
  induction fuel with
  | zero => intro v s s' h; exact Option.noConfusion h
  | succ fuel ih =>
    intro v s s' h hadjp hmb u' hu'
    rw [tryKuhn] at h
    by_cases hused : s.used.getD v true = true
    · rw [if_pos hused] at h
      obtain ⟨-, hs⟩ := Prod.mk.injEq .. ▸ Option.some.inj h
      rw [← hs] at hu'
      exact Or.inl hu'
    · rw [if_neg hused] at h
      obtain ⟨hmark, hvused, -⟩ := markShuffle_step0 shuffle R v s hused
      have hmeq : (markShuffle shuffle R v s).matched = s.matched :=
        markShuffle_matched shuffle R v s
      have hueq : (markShuffle shuffle R v s).used = s.used.set v true :=
        markShuffle_used shuffle R v s
      have hadjp2 : AdjP g (markShuffle shuffle R v s) := fun i =>
        (markShuffle_adj_perm hshuffle R v s i).trans (hadjp i)
      have hmb2 : MBound (markShuffle shuffle R v s) := by
        intro j w hw
        rw [hmeq] at hw
        rw [hueq, List.length_set]
        exact hmb j w hw
      obtain ⟨part1, part2⟩ := goNbrs_failclose g (tryKuhn shuffle R fuel)
        (fun u t b' t' hu => (tryKuhn_step0 shuffle R fuel u t b' t' hu).1)
        (fun u t b' t' hu => tryKuhn_adj hshuffle R fuel u t b' t' hu)
        (fun u t b' t' hu hlt => (tryKuhn_step0 shuffle R fuel u t b' t' hu).2 hlt)
        (fun u t t' hu hp hq => ih u t t' hu hp hq)
        v _ _ s' h hadjp2 hmb2
      by_cases hu'v : u' = v
      · refine Or.inr (fun j hj => ?_)
        rw [hu'v] at hj
        have hjsnap : j ∈ (markShuffle shuffle R v s).adj.getD v [] :=
          (hadjp2 v).mem_iff.mpr hj
        obtain ⟨p, hp1, hp2⟩ := part2 j hjsnap
        rw [hmeq] at hp1
        exact ⟨p, hp1, hp2⟩
      · rcases part1 u' hu' with h1 | h1
        · rw [hueq, getD_set_other _ _ _ (fun hc => hu'v hc.symm)] at h1
          exact Or.inl h1
        · refine Or.inr (fun j hj => ?_)
          obtain ⟨p, hp1, hp2⟩ := h1 j hj
          rw [hmeq] at hp1
          exact ⟨p, hp1, hp2⟩

/-- Closed sets, neighbour-loop level: a closed set stays closed, and a
search started inside a closed set fails without touching the matching. -/
theorem goNbrs_closed (g : BipartiteGraph) (U : Nat → Prop)
    (rec : Nat → KState Rng → Option (Bool × KState Rng))
    (hrec_step : ∀ u t b t', rec u t = some (b, t') → Step0 u b t t')
    (hrec_adj : ∀ u t b t', rec u t = some (b, t') →
      ∀ i, (t'.adj.getD i []).Perm (t.adj.getD i []))
    (hrec_cl : ∀ u t b t', rec u t = some (b, t') → AdjP g t →
      Closed g U t.matched →
      Closed g U t'.matched ∧ (U u → b = false ∧ t'.matched = t.matched))
    (v : Nat) :
    ∀ (l : List Nat) (s : KState Rng) (b : Bool) (s' : KState Rng),
      goNbrs rec v l s = some (b, s') → AdjP g s → Closed g U s.matched →
      Closed g U s'.matched ∧
        (U v → (∀ x ∈ l, x ∈ g.leftNbrs.getD v []) →
          b = false ∧ s'.matched = s.matched) := by
  intro l
  induction l with
  | nil =>
    intro s b s' h _ hcl
    rw [goNbrs] at h
    obtain ⟨hb, hs⟩ := Prod.mk.injEq .. ▸ Option.some.inj h
    subst hb
    rw [← hs]
    exact ⟨hcl, fun _ _ => ⟨rfl, rfl⟩⟩
  | cons j0 rest ih =>
    intro s b s' h hadjp hcl
    rw [goNbrs] at h
    split at h
    · rename_i hm
      obtain ⟨hb, hs⟩ := Prod.mk.injEq .. ▸ Option.some.inj h
      subst hb
      rw [← hs]
      constructor
      · intro u' hu' j hj
        by_cases hjj : j = j0
        · subst hjj
          obtain ⟨p, hp1, -⟩ := hcl u' hu' j hj
          rw [hm] at hp1
          exact Option.noConfusion hp1
        · obtain ⟨p, hp1, hp2⟩ := hcl u' hu' j hj
          exact ⟨p, by rwa [getD_set_other _ _ _ (fun hc => hjj hc.symm)], hp2⟩
      · intro hUv hsnap
        obtain ⟨p, hp1, -⟩ := hcl v hUv j0 (hsnap j0 (List.mem_cons_self j0 rest))
        rw [hm] at hp1
        exact Option.noConfusion hp1
    · rename_i u hm
      split at h
      · exact Option.noConfusion h
      · rename_i s1 hr
        obtain ⟨hcl1, hUu⟩ := hrec_cl u s true s1 hr hadjp hcl
        by_cases hU : U u
        · exact Bool.noConfusion (hUu hU).1
        · obtain ⟨hb, hs⟩ := Prod.mk.injEq .. ▸ Option.some.inj h
          subst hb
          rw [← hs]
          constructor
          · intro u' hu' j hj
            by_cases hjj : j = j0
            · subst hjj
              obtain ⟨p, hp1, hp2⟩ := hcl u' hu' j hj
              rw [hm] at hp1
              cases Option.some.inj hp1
              exact absurd hp2 hU
            · obtain ⟨p, hp1, hp2⟩ := hcl1 u' hu' j hj
              exact ⟨p, by rwa [getD_set_other _ _ _ (fun hc => hjj hc.symm)], hp2⟩
          · intro hUv hsnap
            obtain ⟨p, hp1, hp2⟩ := hcl v hUv j0 (hsnap j0 (List.mem_cons_self j0 rest))
            rw [hm] at hp1
            cases Option.some.inj hp1
            exact absurd hp2 hU
      · rename_i s1 hr
        have hstep := hrec_step u s false s1 hr
        have hmeq : s1.matched = s.matched := hstep.mfalse rfl
        obtain ⟨hcl1, -⟩ := hrec_cl u s false s1 hr hadjp hcl
        have hadjp1 : AdjP g s1 := fun i =>
          (hrec_adj u s false s1 hr i).trans (hadjp i)
        obtain ⟨ihcl, ihp⟩ := ih s1 b s' h hadjp1 hcl1
        refine ⟨ihcl, fun hUv hsnap => ?_⟩
        obtain ⟨hb, hms⟩ := ihp hUv (fun x hx => hsnap x (List.mem_cons_of_mem j0 hx))
        exact ⟨hb, hms.trans hmeq⟩

/-- Closed sets survive any `try_kuhn` call, and a search started at a
node of a closed set fails and leaves the matching untouched. -/
theorem tryKuhn_closed (hshuffle : ∀ r l, (shuffle r l).1.Perm l)
    (g : BipartiteGraph) (U : Nat → Prop) (R : Bool) :
    ∀ (fuel v : Nat) (s : KState Rng) (b : Bool) (s' : KState Rng),
      tryKuhn shuffle R fuel v s = some (b, s') → AdjP g s →
      Closed g U s.matched →
      Closed g U s'.matched ∧ (U v → b = false ∧ s'.matched = s.matched) := by
  intro fuel
  induction fuel with
  | zero => intro v s b s' h; exact Option.noConfusion h
  | succ fuel ih =>
    intro v s b s' h hadjp hcl
    rw [tryKuhn] at h
    by_cases hused : s.used.getD v true = true
    · rw [if_pos hused] at h
      obtain ⟨hb, hs⟩ := Prod.mk.injEq .. ▸ Option.some.inj h
      subst hb
      rw [← hs]
      exact ⟨hcl, fun _ => ⟨rfl, rfl⟩⟩
    · rw [if_neg hused] at h
      have hmeq : (markShuffle shuffle R v s).matched = s.matched :=
        markShuffle_matched shuffle R v s
      have hadjp2 : AdjP g (markShuffle shuffle R v s) := fun i =>
        (markShuffle_adj_perm hshuffle R v s i).trans (hadjp i)
      obtain ⟨hcl', hparts⟩ := goNbrs_closed g U (tryKuhn shuffle R fuel)
        (fun u t b' t' hu => (tryKuhn_step0 shuffle R fuel u t b' t' hu).1)
        (fun u t b' t' hu => tryKuhn_adj hshuffle R fuel u t b' t' hu)
        (fun u t b' t' hu hp hq => ih u t b' t' hu hp hq)
        v _ _ b s' h hadjp2 (by rw [hmeq]; exact hcl)
      refine ⟨hcl', fun hUv => ?_⟩
      obtain ⟨hb, hms⟩ := hparts hUv (fun x hx => (hadjp2 v).mem_iff.mp hx)
      exact ⟨hb, hms.trans hmeq⟩

end StepLemmas

section OuterLoop

variable {Rng : Type} (shuffle : Rng → List Nat → List Nat × Rng)

/-- The state after the first `n` iterations of the outer loop of
`kuhn` (the loop processes left nodes `0, 1, …` in index order). -/
def kuhnPrefix (R : Bool) (g : BipartiteGraph) (rng : Rng) (n : Nat) : GState Rng :=
  (List.range n).foldl
    (fun s v => kuhnStep shuffle R g.leftNbrs.length v s)
    ⟨g.leftNbrs, List.replicate g.rightNbrs.length none, rng⟩

theorem kuhnRun_unfold (R : Bool) (g : BipartiteGraph) (rng : Rng) :
    kuhnRun shuffle R g rng = kuhnPrefix shuffle R g rng g.leftNbrs.length := rfl

theorem kuhnPrefix_succ (R : Bool) (g : BipartiteGraph) (rng : Rng) (n : Nat) :
    kuhnPrefix shuffle R g rng (n + 1)
      = kuhnStep shuffle R g.leftNbrs.length n (kuhnPrefix shuffle R g rng n) := by
  unfold kuhnPrefix
  rw [List.range_succ, List.foldl_append]
  rfl

/-- The outer loop's `try_kuhn` call never exhausts its fuel: the
`none` fallback of `kuhnStep` is unreachable. -/
theorem kuhnStep_eq (R : Bool) (L v : Nat) (s : GState Rng) :
    ∃ b t, tryKuhn shuffle R (L + 1) v
        ⟨s.adj, s.matched, List.replicate L false, s.rng⟩ = some (b, t) ∧
      kuhnStep shuffle R L v s = ⟨t.adj, t.matched, t.rng⟩ := by
  have h := tryKuhn_fuel shuffle R (L + 1) v
    ⟨s.adj, s.matched, List.replicate L false, s.rng⟩
    (by show (List.replicate L false).count false < L + 1
        rw [List.count_replicate_self]
        omega)
  cases htk : tryKuhn shuffle R (L + 1) v
      ⟨s.adj, s.matched, List.replicate L false, s.rng⟩ with
  | none => rw [htk] at h; exact Bool.noConfusion h
  | some p =>
    obtain ⟨b, t⟩ := p
    exact ⟨b, t, rfl, by unfold kuhnStep; rw [htk]⟩

/-- The outer-loop invariant of `kuhn` after processing left nodes
`0, …, n-1`: the matching is injective and valid, all matched left nodes
are already-processed ones, the neighbour lists are permutations of the
original ones, and there is a closed-set certificate `U` covering every
processed-but-unmatched left node. -/
structure KInv (g : BipartiteGraph) (n : Nat) (s : GState Rng) : Prop where
  mlen : s.matched.length = g.rightNbrs.length
  adjp : ∀ i, (s.adj.getD i []).Perm (g.leftNbrs.getD i [])
  inj : InjM s.matched
  valid : ValidM g s.matched
  mlt : ∀ j w, s.matched.getD j none = some w → w < n
  cert : ∃ U : Finset Nat, (∀ u ∈ U, u < g.leftNbrs.length) ∧
    Closed g (· ∈ U) s.matched ∧
    (∀ u, u < n → cnt u s.matched = 0 → u ∈ U)

theorem nbrs_bound {g : BipartiteGraph} (hwf : Wf g) :
    ∀ i, ∀ x ∈ g.leftNbrs.getD i [], x < g.rightNbrs.length := by
  intro i x hx
  rcases Nat.lt_or_ge i g.leftNbrs.length with hlt | hge
  · rw [List.getD_eq_getElem _ _ hlt] at hx
    exact hwf.leftBound _ (List.getElem_mem hlt) x hx
  · rw [List.getD_eq_default _ _ hge] at hx
    exact absurd hx (List.not_mem_nil x)

theorem cnt_replicate_none (R w : Nat) : cnt w (List.replicate R none) = 0 := by
  show (List.replicate R none).count (some w) = 0
  rw [List.count_eq_zero]
  intro hmem
  exact Option.noConfusion (List.eq_of_mem_replicate hmem)

theorem KInv_init (g : BipartiteGraph) (rng : Rng) :
    KInv g 0 (⟨g.leftNbrs, List.replicate g.rightNbrs.length none, rng⟩ : GState Rng) := by
  refine ⟨by simp, fun i => List.Perm.refl _, fun w => by
      rw [cnt_replicate_none]; omega,
    ?_, ?_, ⟨∅, ?_, ?_, ?_⟩⟩
  · intro j w hw
    rw [getD_replicate_self] at hw
    exact Option.noConfusion hw
  · intro j w hw
    rw [getD_replicate_self] at hw
    exact Option.noConfusion hw
  · intro u hu; exact absurd hu (Finset.not_mem_empty u)
  · intro u hu; exact absurd hu (Finset.not_mem_empty u)
  · intro u hu; omega

/-- One outer-loop iteration preserves the invariant, processing one more
left node. -/
theorem KInv_step (hshuffle : ∀ r l, (shuffle r l).1.Perm l) (R : Bool)
    {g : BipartiteGraph} (hwf : Wf g) {n : Nat} {s : GState Rng}
    (hn : n < g.leftNbrs.length) (hinv : KInv g n s) :
    KInv g (n + 1) (kuhnStep shuffle R g.leftNbrs.length n s) := by
  obtain ⟨b, t, htk, heq⟩ := kuhnStep_eq shuffle R g.leftNbrs.length n s
  set L := g.leftNbrs.length with hL
  set s0 : KState Rng := ⟨s.adj, s.matched, List.replicate L false, s.rng⟩ with hs0
  have hstep0 : Step0 n b s0 t := (tryKuhn_step0 shuffle R (L + 1) n s0 b t htk).1
  have hvmark : t.used.getD n false = true :=
    (tryKuhn_step0 shuffle R (L + 1) n s0 b t htk).2 (by simp [hs0]; omega)
  have hadjp0 : AdjP g s0 := hinv.adjp
  have hadjb0 : AdjB s0 := by
    intro i x hx
    have hx' : x ∈ g.leftNbrs.getD i [] := (hinv.adjp i).mem_iff.mp hx
    show x < s.matched.length
    rw [hinv.mlen]
    exact nbrs_bound hwf i x hx'
  have hmb0 : MBound s0 := by
    intro j w hw
    have := hinv.mlt j w hw
    show w < (List.replicate L false).length
    rw [List.length_replicate]
    omega
  have hadjt : ∀ i, (t.adj.getD i []).Perm (g.leftNbrs.getD i []) := fun i =>
    (tryKuhn_adj hshuffle R (L + 1) n s0 b t htk i).trans (hinv.adjp i)
  have hvalidt : ValidM g t.matched :=
    tryKuhn_valid hshuffle g R (L + 1) n s0 b t htk hadjp0 hinv.valid
  have hmlent : t.matched.length = g.rightNbrs.length :=
    hstep0.mlen.trans hinv.mlen
  have hmltt : ∀ j w, t.matched.getD j none = some w → w < n + 1 := by
    intro j w hw
    rcases hstep0.msrc j w hw with h1 | h1
    · omega
    · obtain ⟨j', hj'⟩ := getD_of_mem h1
      have := hinv.mlt j' w hj'
      omega
  rw [heq]
  obtain ⟨U, hUb, hUcl, hUcov⟩ := hinv.cert
  cases b with
  | false =>
    have hmeq : t.matched = s.matched := hstep0.mfalse rfl
    -- certificate: add the visited set of the failed search
    set W : Finset Nat := (Finset.range L).filter
      (fun u => t.used.getD u false = true) with hW
    have hfc := tryKuhn_failclose hshuffle g R (L + 1) n s0 t htk hadjp0 hmb0
    refine ⟨hmlent, hadjt, by rw [hmeq]; exact hinv.inj, hvalidt, hmltt,
      ⟨U ∪ W, ?_, ?_, ?_⟩⟩
    · intro u hu
      rcases Finset.mem_union.mp hu with h1 | h1
      · exact hUb u h1
      · exact Finset.mem_range.mp (Finset.mem_filter.mp h1).1
    · intro u hu j hj
      rcases Finset.mem_union.mp hu with h1 | h1
      · obtain ⟨p, hp1, hp2⟩ := hUcl u h1 j hj
        exact ⟨p, by rw [hmeq]; exact hp1, Finset.mem_union_left W hp2⟩
      · have humark : t.used.getD u false = true := (Finset.mem_filter.mp h1).2
        rcases hfc u humark with h2 | h2
        · rw [show s0.used = List.replicate L false from rfl,
            getD_replicate_self] at h2
          exact Bool.noConfusion h2
        · obtain ⟨p, hp1, hp2⟩ := h2 j hj
          have hpL : p < L := by
            have := hinv.mlt j p hp1
            omega
          refine ⟨p, by rw [hmeq]; exact hp1, Finset.mem_union_right U ?_⟩
          exact Finset.mem_filter.mpr ⟨Finset.mem_range.mpr hpL, hp2⟩
    · intro u hu hcnt
      rcases Nat.lt_or_ge u n with h1 | h1
      · exact Finset.mem_union_left W (hUcov u h1 (by rw [hmeq] at hcnt; exact hcnt))
      · have hun : u = n := by omega
        subst hun
        exact Finset.mem_union_right U
          (Finset.mem_filter.mpr ⟨Finset.mem_range.mpr hn, hvmark⟩)
  | true =>
    obtain ⟨hcw, hcv⟩ := tryKuhn_cnt hshuffle R (L + 1) n s0 t htk hadjb0
    have hcntn : cnt n s.matched = 0 := by
      by_contra hc
      have hpos : 0 < s.matched.count (some n) := Nat.pos_of_ne_zero hc
      obtain ⟨j', hj'⟩ := getD_of_mem (List.count_pos_iff.mp hpos)
      have := hinv.mlt j' n hj'
      omega
    refine ⟨hmlent, hadjt, ?_, hvalidt, hmltt, ⟨U, hUb, ?_, ?_⟩⟩
    · intro w
      by_cases hwn : w = n
      · rw [hwn, hcv]
        have h0 : cnt n s0.matched = 0 := hcntn
        omega
      · rw [hcw w hwn]
        exact hinv.inj w
    · exact (tryKuhn_closed hshuffle g (· ∈ U) R (L + 1) n s0 true t htk
        hadjp0 hUcl).1
    · intro u hu hcnt
      by_cases hun : u = n
      · subst hun
        rw [hcv] at hcnt
        omega
      · rw [hcw u hun] at hcnt
        have : u < n := by omega
        exact hUcov u this hcnt

/-- The invariant holds after any prefix of the outer loop. -/
theorem KInv_prefix (hshuffle : ∀ r l, (shuffle r l).1.Perm l) (R : Bool)
    {g : BipartiteGraph} (hwf : Wf g) (rng : Rng) :
    ∀ n, n ≤ g.leftNbrs.length → KInv g n (kuhnPrefix shuffle R g rng n) := by
  intro n
  induction n with
  | zero => intro _; exact KInv_init g rng
  | succ n ih =>
    intro hn
    rw [kuhnPrefix_succ]
    exact KInv_step shuffle hshuffle R hwf (by omega) (ih (by omega))

end OuterLoop

section Counting

theorem msize_eq_card (M : List (Option Nat)) :
    msize M = ((Finset.range M.length).filter
      (fun j => (M.getD j none).isSome)).card := by
  show M.countP (fun o => o.isSome) = _
  rw [countP_eq_sum_range (fun o => o.isSome) none M, Finset.card_filter]

theorem valid_lt {g : BipartiteGraph} {M : List (Option Nat)} {j w : Nat}
    (hval : ValidM g M) (h : M.getD j none = some w) : w < g.leftNbrs.length := by
  have hmem := hval j w h
  by_contra hc
  rw [List.getD_eq_default _ _ (Nat.le_of_not_lt hc)] at hmem
  exact absurd hmem (List.not_mem_nil j)

theorem cnt_ne_zero_of_getD {M : List (Option Nat)} {j w : Nat}
    (h : M.getD j none = some w) : ¬ cnt w M = 0 := by
  intro hc
  exact absurd (mem_of_getD h) (List.count_eq_zero.mp hc)

/-- The `getD`-based partner function is injective on matched slots of an
injective matching. -/
theorem partner_injOn {M : List (Option Nat)} (hinj : InjM M)
    {j k : Nat} (hjk : j ≠ k) {w : Nat}
    (hj : M.getD j none = some w) (hk : M.getD k none = some w) : False := by
  have h2 := two_getD_le_count hjk hj hk (getD_some_lt hj) (getD_some_lt hk)
  have h1 := hinj w
  show False
  simp only [cnt] at h1
  omega

/-- Pigeonhole bound: any valid injective matching has at most
`|N(U)| + (L - |U|)` matched pairs, for any left-node set `U`. -/
theorem matching_le_bound {g : BipartiteGraph} {M' : List (Option Nat)}
    (U : Finset Nat) (hlen : M'.length = g.rightNbrs.length)
    (hval : ValidM g M') (hinj : InjM M') :
    msize M' ≤ ((Finset.range g.rightNbrs.length).filter
        (fun j => ∃ u ∈ U, j ∈ g.leftNbrs.getD u [])).card
      + ((Finset.range g.leftNbrs.length) \ U).card := by
  classical
  set Rr := g.rightNbrs.length with hRr
  set Ll := g.leftNbrs.length with hLl
  set NU := (Finset.range Rr).filter
    (fun j => ∃ u ∈ U, j ∈ g.leftNbrs.getD u []) with hNU
  set S := (Finset.range Rr).filter (fun j => (M'.getD j none).isSome) with hS
  have hmsize : msize M' = S.card := by
    rw [msize_eq_card, hlen]
  set p : Nat → Prop := fun j => ∃ u ∈ U, M'.getD j none = some u with hp
  have hsplit : (S.filter p).card + (S.filter (fun a => ¬ p a)).card = S.card :=
    Finset.filter_card_add_filter_neg_card_eq_card p
  set f : Nat → Nat := fun j => (M'.getD j none).getD 0 with hf
  have hA : (S.filter p).card ≤ NU.card := by
    refine Finset.card_le_card ?_
    intro j hj
    obtain ⟨hjS, u, hu, hju⟩ := Finset.mem_filter.mp hj
    refine Finset.mem_filter.mpr ⟨(Finset.mem_filter.mp hjS).1, ⟨u, hu, ?_⟩⟩
    exact hval j u hju
  have hB : (S.filter (fun j => ¬ p j)).card
      ≤ ((Finset.range Ll) \ U).card := by
    refine Finset.card_le_card_of_injOn f ?_ ?_
    · intro j hj
      obtain ⟨hjS, hnp⟩ := Finset.mem_filter.mp hj
      obtain ⟨-, hsome⟩ := Finset.mem_filter.mp hjS
      obtain ⟨w, hw⟩ := Option.isSome_iff_exists.mp hsome
      have hfj : f j = w := by simp only [hf]; rw [hw]; rfl
      refine Finset.mem_sdiff.mpr ⟨Finset.mem_range.mpr ?_, ?_⟩
      · rw [hfj]; exact valid_lt hval hw
      · rw [hfj]
        intro hwU
        exact hnp ⟨w, hwU, hw⟩
    · intro j hj k hk hfe
      by_contra hjk
      obtain ⟨hjS, -⟩ := Finset.mem_filter.mp hj
      obtain ⟨-, hsj⟩ := Finset.mem_filter.mp hjS
      obtain ⟨hkS, -⟩ := Finset.mem_filter.mp hk
      obtain ⟨-, hsk⟩ := Finset.mem_filter.mp hkS
      obtain ⟨w, hw⟩ := Option.isSome_iff_exists.mp hsj
      obtain ⟨w', hw'⟩ := Option.isSome_iff_exists.mp hsk
      have hfj : f j = w := by simp only [hf]; rw [hw]; rfl
      have hfk : f k = w' := by simp only [hf]; rw [hw']; rfl
      have hww : w = w' := by rw [← hfj, ← hfk, hfe]
      subst hww
      exact partner_injOn hinj hjk hw hw'
  omega

/-- Main counting argument: the matching `kuhn` returns is a maximum
matching — no valid injective matching of the graph has more pairs. -/
theorem kuhn_is_maximum {Rng : Type} (shuffle : Rng → List Nat → List Nat × Rng)
    (hshuffle : ∀ r l, (shuffle r l).1.Perm l) (R : Bool)
    {g : BipartiteGraph} (hwf : Wf g) (rng : Rng)
    {M' : List (Option Nat)} (hlen : M'.length = g.rightNbrs.length)
    (hval : ValidM g M') (hinj : InjM M') :
    msize M' ≤ msize (kuhn shuffle R g rng) := by
  classical
  have hinv := KInv_prefix shuffle hshuffle R hwf rng g.leftNbrs.length
    (Nat.le_refl _)
  set Ll := g.leftNbrs.length with hLl
  set M := (kuhnPrefix shuffle R g rng Ll).matched with hM
  have hkuhn : kuhn shuffle R g rng = M := rfl
  obtain ⟨U, hUb, hUcl, hUcov⟩ := hinv.cert
  set NU := (Finset.range g.rightNbrs.length).filter
    (fun j => ∃ u ∈ U, j ∈ g.leftNbrs.getD u []) with hNU
  have hbound := matching_le_bound U hlen hval hinj
  have hUsub : U ⊆ Finset.range Ll := fun u hu =>
    Finset.mem_range.mpr (hUb u hu)
  have hsdiff : ((Finset.range Ll) \ U).card + U.card = Ll := by
    rw [Finset.card_sdiff_add_card_eq_card hUsub, Finset.card_range]
  set ML := (Finset.range Ll).filter (fun u => ¬ cnt u M = 0) with hML
  set FL := (Finset.range Ll).filter (fun u => cnt u M = 0) with hFL
  have hLsplit : FL.card + ML.card = Ll := by
    rw [hFL, hML]
    rw [Finset.filter_card_add_filter_neg_card_eq_card
      (fun u => cnt u M = 0), Finset.card_range]
  set f : Nat → Nat := fun j => (M.getD j none).getD 0 with hf
  have hNUle : NU.card ≤ (U.filter (fun u => ¬ cnt u M = 0)).card := by
    refine Finset.card_le_card_of_injOn f ?_ ?_
    · intro j hj
      obtain ⟨-, u, hu, hju⟩ := Finset.mem_filter.mp hj
      obtain ⟨q, hq1, hq2⟩ := hUcl u hu j hju
      have hfj : f j = q := by simp only [hf]; rw [hq1]; rfl
      refine Finset.mem_filter.mpr ⟨?_, ?_⟩
      · rw [hfj]; exact hq2
      · rw [hfj]; exact cnt_ne_zero_of_getD hq1
    · intro j hj k hk hfe
      by_contra hjk
      obtain ⟨-, u, hu, hju⟩ := Finset.mem_filter.mp hj
      obtain ⟨-, u', hu', hku⟩ := Finset.mem_filter.mp hk
      obtain ⟨q, hq1, -⟩ := hUcl u hu j hju
      obtain ⟨q', hq1', -⟩ := hUcl u' hu' k hku
      have hfj : f j = q := by simp only [hf]; rw [hq1]; rfl
      have hfk : f k = q' := by simp only [hf]; rw [hq1']; rfl
      have hqq : q = q' := by rw [← hfj, ← hfk, hfe]
      subst hqq
      exact partner_injOn hinv.inj hjk hq1 hq1'
  have hUsplit : (U.filter (fun u => cnt u M = 0)).card
      + (U.filter (fun u => ¬ cnt u M = 0)).card = U.card :=
    Finset.filter_card_add_filter_neg_card_eq_card (fun u => cnt u M = 0)
  have hUF : U.filter (fun u => cnt u M = 0) = FL := by
    ext u
    constructor
    · intro hu
      obtain ⟨huU, hc⟩ := Finset.mem_filter.mp hu
      exact Finset.mem_filter.mpr ⟨Finset.mem_range.mpr (hUb u huU), hc⟩
    · intro hu
      obtain ⟨huL, hc⟩ := Finset.mem_filter.mp hu
      exact Finset.mem_filter.mpr ⟨hUcov u (Finset.mem_range.mp huL) hc, hc⟩
  set S := (Finset.range g.rightNbrs.length).filter
    (fun j => (M.getD j none).isSome) with hS
  have hmsizeM : msize M = S.card := by
    rw [msize_eq_card, hinv.mlen]
  have hSML : S.card = ML.card := by
    refine Nat.le_antisymm ?_ ?_
    · refine Finset.card_le_card_of_injOn f ?_ ?_
      · intro j hj
        obtain ⟨-, hsome⟩ := Finset.mem_filter.mp hj
        obtain ⟨w, hw⟩ := Option.isSome_iff_exists.mp hsome
        have hfj : f j = w := by simp only [hf]; rw [hw]; rfl
        refine Finset.mem_filter.mpr ⟨Finset.mem_range.mpr ?_, ?_⟩
        · rw [hfj]; exact hinv.mlt j w hw
        · rw [hfj]; exact cnt_ne_zero_of_getD hw
      · intro j hj k hk hfe
        by_contra hjk
        obtain ⟨-, hsj⟩ := Finset.mem_filter.mp hj
        obtain ⟨-, hsk⟩ := Finset.mem_filter.mp hk
        obtain ⟨w, hw⟩ := Option.isSome_iff_exists.mp hsj
        obtain ⟨w', hw'⟩ := Option.isSome_iff_exists.mp hsk
        have hfj : f j = w := by simp only [hf]; rw [hw]; rfl
        have hfk : f k = w' := by simp only [hf]; rw [hw']; rfl
        have hww : w = w' := by rw [← hfj, ← hfk, hfe]
        subst hww
        exact partner_injOn hinv.inj hjk hw hw'
    · refine Finset.card_le_card_of_surjOn f ?_
      intro u hu
      obtain ⟨-, hc⟩ := Finset.mem_filter.mp hu
      have hpos : 0 < M.count (some u) := Nat.pos_of_ne_zero hc
      obtain ⟨j, hj⟩ := getD_of_mem (List.count_pos_iff.mp hpos)
      have hjlt : j < M.length := getD_some_lt hj
      refine ⟨j, ?_, ?_⟩
      · show j ∈ ↑S
        refine Finset.mem_coe.mpr (Finset.mem_filter.mpr ⟨?_, ?_⟩)
        · exact Finset.mem_range.mpr (by rw [← hinv.mlen]; exact hjlt)
        · rw [hj]; rfl
      · simp only [hf]; rw [hj]; rfl
  rw [← hNU] at hbound
  rw [← hLl] at hbound
  have hUFcard : (U.filter (fun u => cnt u M = 0)).card = FL.card := by rw [hUF]
  rw [hkuhn, hmsizeM]
  omega

end Counting

section RandomLemmas

/-- Total number of recorded left-side adjacencies (with duplicate-free
lists, the number of distinct edges). -/
def edgeCount (g : BipartiteGraph) : Nat :=
  (g.leftNbrs.map List.length).sum

theorem getD_map_sort (ls : List (List Nat)) (i : Nat) :
    (ls.map (List.insertionSort (· ≤ ·))).getD i []
      = List.insertionSort (· ≤ ·) (ls.getD i []) := by
  rcases Nat.lt_or_ge i ls.length with h | h
  · rw [List.getD_eq_getElem _ _ (by simpa using h), List.getD_eq_getElem _ _ h]
    exact List.getElem_map _
  · rw [List.getD_eq_default _ _ (by simpa using h), List.getD_eq_default _ _ h]
    rfl

theorem foldl_addEdge_left (l r : Nat) :
    ∀ (codes : List Nat) (acc : List (List Nat) × List (List Nat)),
      (∀ c ∈ codes, c < l * r) → acc.1.length = l →
      (codes.foldl (addEdge r) acc).1.length = l ∧
      ∀ i, (codes.foldl (addEdge r) acc).1.getD i []
        = acc.1.getD i []
          ++ (codes.filter (fun c => c / r == i)).map (fun c => c % r) := by
  intro codes
  induction codes with
  | nil => intro acc _ hlen; exact ⟨hlen, fun i => by simp⟩
  | cons c cs ih =>
    intro acc hc hlen
    have hcl : c < l * r := hc c (List.mem_cons_self c cs)
    have hr : 0 < r := by
      rcases Nat.eq_zero_or_pos r with h0 | h0
      · subst h0; omega
      · exact h0
    have hdiv : c / r < l := by
      rw [Nat.div_lt_iff_lt_mul hr]
      omega
    have hlen' : (addEdge r acc c).1.length = l := by
      show (acc.1.set (c / r) (acc.1.getD (c / r) [] ++ [c % r])).length = l
      rw [List.length_set]
      exact hlen
    obtain ⟨ihlen, ihget⟩ := ih (addEdge r acc c)
      (fun x hx => hc x (List.mem_cons_of_mem c hx)) hlen'
    refine ⟨ihlen, fun i => ?_⟩
    rw [List.foldl_cons, ihget i]
    by_cases hi : c / r = i
    · have hacc : (addEdge r acc c).1.getD i []
          = acc.1.getD i [] ++ [c % r] := by
        show (acc.1.set (c / r) (acc.1.getD (c / r) [] ++ [c % r])).getD i [] = _
        rw [hi] at hdiv ⊢
        exact getD_set_same _ _ _ _ (by rw [hlen]; exact hdiv)
      rw [hacc, List.filter_cons_of_pos (by simpa using hi), List.map_cons]
      simp
    · have hacc : (addEdge r acc c).1.getD i [] = acc.1.getD i [] := by
        show (acc.1.set (c / r) (acc.1.getD (c / r) [] ++ [c % r])).getD i [] = _
        exact getD_set_other _ _ _ hi
      rw [hacc, List.filter_cons_of_neg (by simpa using hi)]

theorem foldl_addEdge_right (l r : Nat) :
    ∀ (codes : List Nat) (acc : List (List Nat) × List (List Nat)),
      (∀ c ∈ codes, c < l * r) → acc.2.length = r →
      (codes.foldl (addEdge r) acc).2.length = r ∧
      ∀ j, (codes.foldl (addEdge r) acc).2.getD j []
        = acc.2.getD j []
          ++ (codes.filter (fun c => c % r == j)).map (fun c => c / r) := by
  intro codes
  induction codes with
  | nil => intro acc _ hlen; exact ⟨hlen, fun j => by simp⟩
  | cons c cs ih =>
    intro acc hc hlen
    have hcl : c < l * r := hc c (List.mem_cons_self c cs)
    have hr : 0 < r := by
      rcases Nat.eq_zero_or_pos r with h0 | h0
      · subst h0; omega
      · exact h0
    have hmod : c % r < r := Nat.mod_lt c hr
    have hlen' : (addEdge r acc c).2.length = r := by
      show (acc.2.set (c % r) (acc.2.getD (c % r) [] ++ [c / r])).length = r
      rw [List.length_set]
      exact hlen
    obtain ⟨ihlen, ihget⟩ := ih (addEdge r acc c)
      (fun x hx => hc x (List.mem_cons_of_mem c hx)) hlen'
    refine ⟨ihlen, fun j => ?_⟩
    rw [List.foldl_cons, ihget j]
    by_cases hj : c % r = j
    · have hacc : (addEdge r acc c).2.getD j []
          = acc.2.getD j [] ++ [c / r] := by
        show (acc.2.set (c % r) (acc.2.getD (c % r) [] ++ [c / r])).getD j [] = _
        rw [hj] at hmod ⊢
        exact getD_set_same _ _ _ _ (by rw [hlen]; exact hmod)
      rw [hacc, List.filter_cons_of_pos (by simpa using hj), List.map_cons]
      simp
    · have hacc : (addEdge r acc c).2.getD j [] = acc.2.getD j [] := by
        show (acc.2.set (c % r) (acc.2.getD (c % r) [] ++ [c / r])).getD j [] = _
        exact getD_set_other _ _ _ hj
      rw [hacc, List.filter_cons_of_neg (by simpa using hj)]

/-- The left neighbour lists of a built graph: sorted decodings of the
codes with the matching row. -/
theorem buildGraph_left (l r : Nat) (codes : List Nat)
    (hc : ∀ c ∈ codes, c < l * r) :
    (buildGraph l r codes).leftNbrs.length = l ∧
    ∀ i, (buildGraph l r codes).leftNbrs.getD i []
      = List.insertionSort (· ≤ ·)
          ((codes.filter (fun c => c / r == i)).map (fun c => c % r)) := by
  obtain ⟨hlen, hget⟩ := foldl_addEdge_left l r codes
    (List.replicate l [], List.replicate r []) hc (by simp)
  constructor
  · show ((codes.foldl (addEdge r) (List.replicate l [], List.replicate r [])).1.map
      (List.insertionSort (· ≤ ·))).length = l
    rw [List.length_map]
    exact hlen
  · intro i
    show ((codes.foldl (addEdge r) _).1.map (List.insertionSort (· ≤ ·))).getD i [] = _
    rw [getD_map_sort, hget i, getD_replicate_self]
    rfl

theorem buildGraph_right (l r : Nat) (codes : List Nat)
    (hc : ∀ c ∈ codes, c < l * r) :
    (buildGraph l r codes).rightNbrs.length = r ∧
    ∀ j, (buildGraph l r codes).rightNbrs.getD j []
      = List.insertionSort (· ≤ ·)
          ((codes.filter (fun c => c % r == j)).map (fun c => c / r)) := by
  obtain ⟨hlen, hget⟩ := foldl_addEdge_right l r codes
    (List.replicate l [], List.replicate r []) hc (by simp)
  constructor
  · show ((codes.foldl (addEdge r) (List.replicate l [], List.replicate r [])).2.map
      (List.insertionSort (· ≤ ·))).length = r
    rw [List.length_map]
    exact hlen
  · intro j
    show ((codes.foldl (addEdge r) _).2.map (List.insertionSort (· ≤ ·))).getD j [] = _
    rw [getD_map_sort, hget j, getD_replicate_self]
    rfl

/-- Membership in a left neighbour list of a built graph, in terms of the
sampled codes. -/
theorem buildGraph_mem_left (l r : Nat) (codes : List Nat)
    (hc : ∀ c ∈ codes, c < l * r) (i j : Nat) :
    j ∈ (buildGraph l r codes).leftNbrs.getD i []
      ↔ ∃ c ∈ codes, c / r = i ∧ c % r = j := by
  rw [(buildGraph_left l r codes hc).2 i]
  rw [(List.perm_insertionSort (· ≤ ·) _).mem_iff]
  constructor
  · intro h
    obtain ⟨c, hcmem, hcj⟩ := List.mem_map.mp h
    obtain ⟨hcmem', hci⟩ := List.mem_filter.mp hcmem
    exact ⟨c, hcmem', by simpa using hci, hcj⟩
  · intro ⟨c, hcmem, hci, hcj⟩
    exact List.mem_map.mpr ⟨c, List.mem_filter.mpr ⟨hcmem, by simpa using hci⟩, hcj⟩

theorem buildGraph_mem_right (l r : Nat) (codes : List Nat)
    (hc : ∀ c ∈ codes, c < l * r) (i j : Nat) :
    i ∈ (buildGraph l r codes).rightNbrs.getD j []
      ↔ ∃ c ∈ codes, c / r = i ∧ c % r = j := by
  rw [(buildGraph_right l r codes hc).2 j]
  rw [(List.perm_insertionSort (· ≤ ·) _).mem_iff]
  constructor
  · intro h
    obtain ⟨c, hcmem, hci⟩ := List.mem_map.mp h
    obtain ⟨hcmem', hcj⟩ := List.mem_filter.mp hcmem
    exact ⟨c, hcmem', hci, by simpa using hcj⟩
  · intro ⟨c, hcmem, hci, hcj⟩
    exact List.mem_map.mpr ⟨c, List.mem_filter.mpr ⟨hcmem, by simpa using hcj⟩, hci⟩

/-- Edges are recorded mutually. -/
theorem buildGraph_mutual (l r : Nat) (codes : List Nat)
    (hc : ∀ c ∈ codes, c < l * r) (i j : Nat) :
    j ∈ (buildGraph l r codes).leftNbrs.getD i []
      ↔ i ∈ (buildGraph l r codes).rightNbrs.getD j [] := by
  rw [buildGraph_mem_left l r codes hc i j, buildGraph_mem_right l r codes hc i j]

/-- A built graph is well-formed. -/
theorem buildGraph_wf (l r : Nat) (codes : List Nat)
    (hc : ∀ c ∈ codes, c < l * r) : Wf (buildGraph l r codes) := by
  constructor
  · intro lst hlst x hx
    obtain ⟨i, hi, hlsti⟩ := List.getElem_of_mem hlst
    have hget : (buildGraph l r codes).leftNbrs.getD i [] = lst := by
      rw [List.getD_eq_getElem _ _ hi]
      exact hlsti
    rw [← hget] at hx
    obtain ⟨c, hcmem, -, hcj⟩ := (buildGraph_mem_left l r codes hc i x).mp hx
    have hcl := hc c hcmem
    have hr : 0 < r := by
      rcases Nat.eq_zero_or_pos r with h0 | h0
      · subst h0; omega
      · exact h0
    rw [(buildGraph_right l r codes hc).1, ← hcj]
    exact Nat.mod_lt c hr
  · intro lst hlst x hx
    obtain ⟨j, hj, hlstj⟩ := List.getElem_of_mem hlst
    have hget : (buildGraph l r codes).rightNbrs.getD j [] = lst := by
      rw [List.getD_eq_getElem _ _ hj]
      exact hlstj
    rw [← hget] at hx
    obtain ⟨c, hcmem, hci, -⟩ := (buildGraph_mem_right l r codes hc x j).mp hx
    have hcl := hc c hcmem
    have hr : 0 < r := by
      rcases Nat.eq_zero_or_pos r with h0 | h0
      · subst h0; omega
      · exact h0
    rw [(buildGraph_left l r codes hc).1, ← hci]
    rw [Nat.div_lt_iff_lt_mul hr]
    omega

/-- Each neighbour list of a built graph is sorted and duplicate-free
(given distinct codes). -/
theorem buildGraph_sorted_nodup (l r : Nat) (codes : List Nat)
    (hc : ∀ c ∈ codes, c < l * r) (hnd : codes.Nodup) :
    (∀ lst ∈ (buildGraph l r codes).leftNbrs,
      List.Sorted (· ≤ ·) lst ∧ lst.Nodup) ∧
    (∀ lst ∈ (buildGraph l r codes).rightNbrs,
      List.Sorted (· ≤ ·) lst ∧ lst.Nodup) := by
  constructor
  · intro lst hlst
    obtain ⟨i, hi, hlsti⟩ := List.getElem_of_mem hlst
    have hget : lst = (buildGraph l r codes).leftNbrs.getD i [] := by
      rw [List.getD_eq_getElem _ _ hi, hlsti]
    rw [hget, (buildGraph_left l r codes hc).2 i]
    refine ⟨List.sorted_insertionSort _ _, ?_⟩
    rw [(List.perm_insertionSort (· ≤ ·) _).nodup_iff]
    refine List.Nodup.map_on ?_ (hnd.filter _)
    intro x hx y hy hxy
    obtain ⟨-, hxi⟩ := List.mem_filter.mp hx
    obtain ⟨-, hyi⟩ := List.mem_filter.mp hy
    have hx' : x / r = i := by simpa using hxi
    have hy' : y / r = i := by simpa using hyi
    have h1 := Nat.div_add_mod x r
    have h2 := Nat.div_add_mod y r
    rw [hx'] at h1
    rw [hy'] at h2
    omega
  · intro lst hlst
    obtain ⟨j, hj, hlstj⟩ := List.getElem_of_mem hlst
    have hget : lst = (buildGraph l r codes).rightNbrs.getD j [] := by
      rw [List.getD_eq_getElem _ _ hj, hlstj]
    rw [hget, (buildGraph_right l r codes hc).2 j]
    refine ⟨List.sorted_insertionSort _ _, ?_⟩
    rw [(List.perm_insertionSort (· ≤ ·) _).nodup_iff]
    refine List.Nodup.map_on ?_ (hnd.filter _)
    intro x hx y hy hxy
    obtain ⟨-, hxj⟩ := List.mem_filter.mp hx
    obtain ⟨-, hyj⟩ := List.mem_filter.mp hy
    have hx' : x % r = j := by simpa using hxj
    have hy' : y % r = j := by simpa using hyj
    have h1 := Nat.div_add_mod x r
    have h2 := Nat.div_add_mod y r
    rw [hx', hxy] at h1
    rw [hy'] at h2
    omega

theorem sum_map_length_set :
    ∀ (ls : List (List Nat)) (i : Nat) (x : Nat), i < ls.length →
      ((ls.set i (ls.getD i [] ++ [x])).map List.length).sum
        = (ls.map List.length).sum + 1
  | [], i, _, h => absurd h (Nat.not_lt_zero i)
  | y :: t, 0, x, _ => by
    show (((y ++ [x]) :: t).map List.length).sum = _
    simp only [List.map_cons, List.sum_cons, List.length_append,
      List.length_cons, List.length_nil]
    omega
  | y :: t, i + 1, x, h => by
    have ih := sum_map_length_set t i x (Nat.lt_of_succ_lt_succ h)
    show ((y :: t.set i (t.getD i [] ++ [x])).map List.length).sum = _
    simp only [List.map_cons, List.sum_cons]
    omega

theorem foldl_addEdge_sum (l r : Nat) :
    ∀ (codes : List Nat) (acc : List (List Nat) × List (List Nat)),
      (∀ c ∈ codes, c < l * r) → acc.1.length = l →
      ((codes.foldl (addEdge r) acc).1.map List.length).sum
        = (acc.1.map List.length).sum + codes.length := by
  intro codes
  induction codes with
  | nil => intro acc _ _; simp
  | cons c cs ih =>
    intro acc hc hlen
    have hcl : c < l * r := hc c (List.mem_cons_self c cs)
    have hr : 0 < r := by
      rcases Nat.eq_zero_or_pos r with h0 | h0
      · subst h0; omega
      · exact h0
    have hdiv : c / r < l := by
      rw [Nat.div_lt_iff_lt_mul hr]
      omega
    have hstep := sum_map_length_set acc.1 (c / r) (c % r) (by rw [hlen]; exact hdiv)
    have hlen' : (addEdge r acc c).1.length = l := by
      show (acc.1.set (c / r) (acc.1.getD (c / r) [] ++ [c % r])).length = l
      rw [List.length_set]
      exact hlen
    rw [List.foldl_cons,
      ih (addEdge r acc c) (fun x hx => hc x (List.mem_cons_of_mem c hx)) hlen']
    show ((acc.1.set (c / r) (acc.1.getD (c / r) [] ++ [c % r])).map
        List.length).sum + cs.length = _
    rw [hstep, List.length_cons]
    omega

/-- The number of recorded edges equals the number of sampled codes. -/
theorem edgeCount_buildGraph (l r : Nat) (codes : List Nat)
    (hc : ∀ c ∈ codes, c < l * r) :
    edgeCount (buildGraph l r codes) = codes.length := by
  show (((codes.foldl (addEdge r) (List.replicate l [], List.replicate r [])).1.map
    (List.insertionSort (· ≤ ·))).map List.length).sum = codes.length
  rw [List.map_map]
  have hcongr : (codes.foldl (addEdge r) (List.replicate l [], List.replicate r [])).1.map
      (List.length ∘ List.insertionSort (· ≤ ·))
      = (codes.foldl (addEdge r) (List.replicate l [], List.replicate r [])).1.map
        List.length := by
    refine List.map_congr_left ?_
    intro t _
    exact (List.perm_insertionSort (· ≤ ·) t).length_eq
  rw [hcongr, foldl_addEdge_sum l r codes _ hc (by simp)]
  simp

end RandomLemmas

section KuhnCorollaries

variable {Rng : Type} (shuffle : Rng → List Nat → List Nat × Rng)

/-- With the randomized flag off, one outer-loop iteration changes
neither the neighbour lists nor the RNG. -/
theorem kuhnStep_false_frame (L v : Nat) (s : GState Rng) :
    (kuhnStep shuffle false L v s).adj = s.adj ∧
      (kuhnStep shuffle false L v s).rng = s.rng := by
  obtain ⟨b, t, htk, heq⟩ := kuhnStep_eq shuffle false L v s
  obtain ⟨hr, ha⟩ := tryKuhn_rngadj_false (L + 1) v _ b t htk
  rw [heq]
  exact ⟨ha, hr⟩

theorem kuhnPrefix_false_frame (g : BipartiteGraph) (rng : Rng) :
    ∀ n, (kuhnPrefix shuffle false g rng n).adj = g.leftNbrs ∧
      (kuhnPrefix shuffle false g rng n).rng = rng := by
  intro n
  induction n with
  | zero => exact ⟨rfl, rfl⟩
  | succ n ih =>
    rw [kuhnPrefix_succ]
    obtain ⟨ha, hr⟩ := kuhnStep_false_frame shuffle g.leftNbrs.length n
      (kuhnPrefix shuffle false g rng n)
    exact ⟨ha.trans ih.1, hr.trans ih.2⟩

/-- With the randomized flag off, one outer-loop iteration never reads
the RNG. -/
theorem kuhnStep_rng_swap (L v : Nat) (s : GState Rng) (r2 : Rng) :
    kuhnStep shuffle false L v ⟨s.adj, s.matched, r2⟩
      = ⟨(kuhnStep shuffle false L v s).adj,
          (kuhnStep shuffle false L v s).matched, r2⟩ := by
  obtain ⟨b, t, htk, heq⟩ := kuhnStep_eq shuffle false L v s
  have h2 : tryKuhn shuffle false (L + 1) v
      ⟨s.adj, s.matched, List.replicate L false, r2⟩ = some (b, setRng r2 t) :=
    (tryKuhn_rng_irrel (L + 1) v
      ⟨s.adj, s.matched, List.replicate L false, s.rng⟩ r2).1 b t htk
  show (match tryKuhn shuffle false (L + 1) v
      ⟨s.adj, s.matched, List.replicate L false, r2⟩ with
    | none => (⟨s.adj, s.matched, r2⟩ : GState Rng)
    | some (_, t) => ⟨t.adj, t.matched, t.rng⟩) = _
  rw [h2, heq]
  rfl

theorem kuhnPrefix_rng_swap (g : BipartiteGraph) (r1 r2 : Rng) :
    ∀ n, kuhnPrefix shuffle false g r2 n
      = ⟨(kuhnPrefix shuffle false g r1 n).adj,
          (kuhnPrefix shuffle false g r1 n).matched, r2⟩ := by
  intro n
  induction n with
  | zero => rfl
  | succ n ih =>
    rw [kuhnPrefix_succ, ih, kuhnStep_rng_swap, kuhnPrefix_succ]

/-- Matched (`Some`) entries survive one outer-loop iteration. -/
theorem kuhnStep_msome (R : Bool) (L v : Nat) (s : GState Rng) :
    ∀ j w, s.matched.getD j none = some w →
      ∃ w', (kuhnStep shuffle R L v s).matched.getD j none = some w' := by
  obtain ⟨b, t, htk, heq⟩ := kuhnStep_eq shuffle R L v s
  rw [heq]
  exact fun j w hw =>
    (tryKuhn_step0 shuffle R (L + 1) v _ b t htk).1.msome j w hw

/-- Matched (`Some`) entries survive across outer-loop iterations. -/
theorem kuhnPrefix_msome (R : Bool) (g : BipartiteGraph) (rng : Rng) :
    ∀ {n n' : Nat}, n ≤ n' → ∀ j w,
      (kuhnPrefix shuffle R g rng n).matched.getD j none = some w →
      ∃ w', (kuhnPrefix shuffle R g rng n').matched.getD j none = some w' := by
  intro n n' h
  induction h with
  | refl => exact fun j w hw => ⟨w, hw⟩
  | step h ih =>
    rename_i n'
    intro j w hw
    obtain ⟨w', hw'⟩ := ih j w hw
    rw [kuhnPrefix_succ]
    exact kuhnStep_msome shuffle R g.leftNbrs.length n' _ j w' hw'

theorem kuhnPrefix_mlen (R : Bool) (g : BipartiteGraph) (rng : Rng) :
    ∀ n, (kuhnPrefix shuffle R g rng n).matched.length = g.rightNbrs.length := by
  intro n
  induction n with
  | zero => exact List.length_replicate _ _
  | succ n ih =>
    rw [kuhnPrefix_succ]
    obtain ⟨b, t, htk, heq⟩ := kuhnStep_eq shuffle R g.leftNbrs.length n
      (kuhnPrefix shuffle R g rng n)
    rw [heq]
    exact ((tryKuhn_step0 shuffle R _ n _ b t htk).1.mlen).trans ih

theorem msize_mono_of_pointwise {M M' : List (Option Nat)}
    (hlen : M'.length = M.length)
    (hmono : ∀ j w, M.getD j none = some w →
      ∃ w', M'.getD j none = some w') :
    msize M ≤ msize M' := by
  rw [msize_eq_card, msize_eq_card, hlen]
  apply Finset.card_le_card
  intro j hj
  obtain ⟨hjr, hsome⟩ := Finset.mem_filter.mp hj
  obtain ⟨w, hw⟩ := Option.isSome_iff_exists.mp hsome
  obtain ⟨w', hw'⟩ := hmono j w hw
  exact Finset.mem_filter.mpr ⟨hjr, by rw [hw']; rfl⟩

end KuhnCorollaries

section Instantiations

/-- A trivial shuffle (identity reordering) used to evaluate the model on
concrete inputs; it satisfies the permutation contract. -/
def shuffleId {Rng : Type} : Rng → List Nat → List Nat × Rng :=
  fun r l => (l, r)

theorem shuffleId_perm {Rng : Type} :
    ∀ (r : Rng) (l : List Nat), ((shuffleId r l).1).Perm l :=
  fun _ l => List.Perm.refl l

/-- A concrete sampler satisfying the contract of
`rand::seq::index::sample`: `m` distinct indices below `n` when `m ≤ n`,
failure otherwise. -/
def sampleRange {Rng : Type} : Rng → Nat → Nat → Option (List Nat × Rng) :=
  fun r n m => if m ≤ n then some (List.range m, r) else none

/-- A small test graph: L = 2, R = 2, edges (0,0), (0,1), (1,0). -/
def gSmall : BipartiteGraph :=
  ⟨[[0, 1], [0]], [[0, 1], [0]]⟩

-- sanity checks on concrete inputs
theorem kuhn_gSmall_eval :
    kuhn (shuffleId : Unit → List Nat → List Nat × Unit) false gSmall ()
      = [some 1, some 0] := by decide

theorem buildGraph_eval : buildGraph 2 2 [0, 1, 2] = gSmall := by decide

/-- Executable validity check (used to discharge `ValidM` on concrete
inputs). -/
def validCheck (g : BipartiteGraph) (M : List (Option Nat)) : Bool :=
  (List.range M.length).all (fun j =>
    match M.getD j none with
    | none => true
    | some v => decide (j ∈ g.leftNbrs.getD v []))

theorem validM_of_validCheck {g : BipartiteGraph} {M : List (Option Nat)}
    (h : validCheck g M = true) : ValidM g M := by
  intro j v hv
  have hj := getD_some_lt hv
  have hall := List.all_eq_true.mp h j (List.mem_range.mpr hj)
  rw [hv] at hall
  exact of_decide_eq_true hall

/-- Executable injectivity check (used to discharge `InjM` on concrete
inputs). -/
def injCheck (M : List (Option Nat)) : Bool :=
  M.all (fun o =>
    match o with
    | none => true
    | some w => decide (M.count (some w) ≤ 1))

theorem injM_of_injCheck {M : List (Option Nat)}
    (h : injCheck M = true) : InjM M := by
  intro w
  by_cases hmem : some w ∈ M
  · have hall := List.all_eq_true.mp h (some w) hmem
    exact of_decide_eq_true hall
  · show M.count (some w) ≤ 1
    rw [List.count_eq_zero.mpr hmem]
    omega

end Instantiations

section Claims

/-- C1: For every well-formed bipartite graph, after `kuhn` processes
every left node `v` in index order `0..L` with exactly one augmentation
attempt per left node (no retries), the returned matching is a maximum
matching of the graph: no valid (edge-respecting, injective) matching
vector of the graph has strictly more matched pairs.  Stated for both
traversal policies; the randomized one under the contract that the
shuffle permutes its input. -/
theorem C1_maximum_matching {Rng : Type}
    (shuffle : Rng → List Nat → List Nat × Rng)
    (hshuffle : ∀ r l, (shuffle r l).1.Perm l) (R : Bool)
    (g : BipartiteGraph) (hwf : Wf g) (rng : Rng)
    (M' : List (Option Nat)) (hlen : M'.length = g.rightNbrs.length)
    (hval : ValidM g M') (hinj : InjM M') :
    msize M' ≤ msize (kuhn shuffle R g rng) :=
  kuhn_is_maximum shuffle hshuffle R hwf rng hlen hval hinj

theorem C1_maximum_matching_witness :
    msize [some 0, none]
      ≤ msize (kuhn (shuffleId : Unit → List Nat → List Nat × Unit) false gSmall ()) :=
  C1_maximum_matching shuffleId shuffleId_perm false gSmall
    ⟨by decide, by decide⟩ () [some 0, none] (by decide)
    (validM_of_validCheck (by decide)) (injM_of_injCheck (by decide))

/-- C2: For every matching vector returned by `kuhn` (randomized or not)
on a well-formed graph, the `Some` entries are injective: two right-node
slots holding the same left node are the same slot. -/
theorem C2_injective {Rng : Type}
    (shuffle : Rng → List Nat → List Nat × Rng)
    (hshuffle : ∀ r l, (shuffle r l).1.Perm l) (R : Bool)
    (g : BipartiteGraph) (hwf : Wf g) (rng : Rng) (j1 j2 v : Nat)
    (h1 : (kuhn shuffle R g rng).getD j1 none = some v)
    (h2 : (kuhn shuffle R g rng).getD j2 none = some v) :
    j1 = j2 := by
  by_contra hne
  have hinv := KInv_prefix shuffle hshuffle R hwf rng g.leftNbrs.length
    (Nat.le_refl _)
  exact partner_injOn hinv.inj hne h1 h2

theorem C2_injective_witness : (0 : Nat) = 0 :=
  C2_injective (shuffleId : Unit → List Nat → List Nat × Unit) shuffleId_perm
    false gSmall ⟨by decide, by decide⟩ () 0 0 1 (by decide) (by decide)

/-- C3: For every matching vector returned by `kuhn` on a graph built by
`random`, every entry `matched_right[j] = Some v` has `v` a recorded
neighbour of right node `j` (the edge is present in the graph). -/
theorem C3_matched_are_neighbours {Rng : Type}
    (shuffle : Rng → List Nat → List Nat × Rng)
    (hshuffle : ∀ r l, (shuffle r l).1.Perm l)
    (sample : Rng → Nat → Nat → Option (List Nat × Rng)) (R : Bool)
    (rng rngS rngG rng2 : Rng) (l r m : Nat) (codes : List Nat)
    (g : BipartiteGraph)
    (hsam : sample rng (l * r) m = some (codes, rngS))
    (hcodes : ∀ c ∈ codes, c < l * r)
    (hg : random sample rng l r m = some (g, rngG))
    (j v : Nat)
    (hjv : (kuhn shuffle R g rng2).getD j none = some v) :
    v ∈ g.rightNbrs.getD j [] := by
  have hg' : random sample rng l r m = some (buildGraph l r codes, rngS) := by
    show (match sample rng (l * r) m with
      | none => none
      | some (codes, rng') => some (buildGraph l r codes, rng')) = _
    rw [hsam]
  rw [hg'] at hg
  obtain ⟨hgeq, -⟩ := Prod.mk.injEq .. ▸ Option.some.inj hg
  have hwf := buildGraph_wf l r codes hcodes
  rw [← hgeq] at hjv ⊢
  have hinv := KInv_prefix shuffle hshuffle R hwf rng2
    (buildGraph l r codes).leftNbrs.length (Nat.le_refl _)
  have hleft : j ∈ (buildGraph l r codes).leftNbrs.getD v [] :=
    hinv.valid j v hjv
  exact (buildGraph_mutual l r codes hcodes v j).mp hleft

theorem C3_matched_are_neighbours_witness : 1 ∈ gSmall.rightNbrs.getD 0 [] :=
  C3_matched_are_neighbours (shuffleId : Unit → List Nat → List Nat × Unit)
    shuffleId_perm sampleRange false () () () () 2 2 3 [0, 1, 2] gSmall
    (by decide) (by decide) (by decide) 0 1 (by decide)

/-- C4: For all `L`, `R` and `0 ≤ m ≤ L·R`, the graph built by `random`
contains exactly `m` distinct edges: each sampled code `c` is decoded to
the edge `(c / R, c % R)` and recorded mutually (on both endpoints'
lists), the total number of recorded edges is `m`, and no edge pair
repeats (every neighbour list is duplicate-free).  Stated for any sample
result respecting the sampler's contract. -/
theorem C4_edge_construction {Rng : Type}
    (sample : Rng → Nat → Nat → Option (List Nat × Rng))
    (rng rngS : Rng) (l r m : Nat) (codes : List Nat)
    (hsam : sample rng (l * r) m = some (codes, rngS))
    (hnd : codes.Nodup) (hlenc : codes.length = m)
    (hcodes : ∀ c ∈ codes, c < l * r) :
    ∃ g, random sample rng l r m = some (g, rngS) ∧
      edgeCount g = m ∧
      (∀ lst ∈ g.leftNbrs, lst.Nodup) ∧
      (∀ c ∈ codes, (c % r) ∈ g.leftNbrs.getD (c / r) [] ∧
        (c / r) ∈ g.rightNbrs.getD (c % r) []) ∧
      (∀ i j, j ∈ g.leftNbrs.getD i [] ↔ i ∈ g.rightNbrs.getD j []) := by
  refine ⟨buildGraph l r codes, ?_, ?_, ?_, ?_, ?_⟩
  · show (match sample rng (l * r) m with
      | none => none
      | some (codes, rng') => some (buildGraph l r codes, rng')) = _
    rw [hsam]
  · rw [edgeCount_buildGraph l r codes hcodes]
    exact hlenc
  · intro lst hlst
    exact ((buildGraph_sorted_nodup l r codes hcodes hnd).1 lst hlst).2
  · intro c hc
    constructor
    · exact (buildGraph_mem_left l r codes hcodes (c / r) (c % r)).mpr
        ⟨c, hc, rfl, rfl⟩
    · exact (buildGraph_mem_right l r codes hcodes (c / r) (c % r)).mpr
        ⟨c, hc, rfl, rfl⟩
  · exact buildGraph_mutual l r codes hcodes

theorem C4_edge_construction_witness :
    ∃ g, random (sampleRange : Unit → Nat → Nat → Option (List Nat × Unit))
        () 2 2 3 = some (g, ()) ∧
      edgeCount g = 3 ∧
      (∀ lst ∈ g.leftNbrs, lst.Nodup) ∧
      (∀ c ∈ [0, 1, 2], (c % 2) ∈ g.leftNbrs.getD (c / 2) [] ∧
        (c / 2) ∈ g.rightNbrs.getD (c % 2) []) ∧
      (∀ i j, j ∈ g.leftNbrs.getD i [] ↔ i ∈ g.rightNbrs.getD j []) :=
  C4_edge_construction sampleRange () () 2 2 3 [0, 1, 2]
    (by decide) (by decide) (by decide) (by decide)

/-- C5: For every graph built by `random`, every neighbour list of every
left node and of every right node is sorted ascending and contains no
duplicate indices. -/
theorem C5_sorted_nodup {Rng : Type}
    (sample : Rng → Nat → Nat → Option (List Nat × Rng))
    (rng rngS rngG : Rng) (l r m : Nat) (codes : List Nat)
    (g : BipartiteGraph)
    (hsam : sample rng (l * r) m = some (codes, rngS))
    (hnd : codes.Nodup) (hcodes : ∀ c ∈ codes, c < l * r)
    (hg : random sample rng l r m = some (g, rngG)) :
    (∀ lst ∈ g.leftNbrs, List.Sorted (· ≤ ·) lst ∧ lst.Nodup) ∧
    (∀ lst ∈ g.rightNbrs, List.Sorted (· ≤ ·) lst ∧ lst.Nodup) := by
  have hg' : random sample rng l r m = some (buildGraph l r codes, rngS) := by
    show (match sample rng (l * r) m with
      | none => none
      | some (codes, rng') => some (buildGraph l r codes, rng')) = _
    rw [hsam]
  rw [hg'] at hg
  obtain ⟨hgeq, -⟩ := Prod.mk.injEq .. ▸ Option.some.inj hg
  rw [← hgeq]
  exact buildGraph_sorted_nodup l r codes hcodes hnd

theorem C5_sorted_nodup_witness :
    (∀ lst ∈ gSmall.leftNbrs, List.Sorted (· ≤ ·) lst ∧ lst.Nodup) ∧
    (∀ lst ∈ gSmall.rightNbrs, List.Sorted (· ≤ ·) lst ∧ lst.Nodup) :=
  C5_sorted_nodup (sampleRange : Unit → Nat → Nat → Option (List Nat × Unit))
    () () () 2 2 3 [0, 1, 2] gSmall (by decide) (by decide) (by decide) (by decide)

/-- C6: For every `L`, `R` and requested edge count `m` with `m > L·R`,
graph construction fails: the sampler (whose contract is to succeed
exactly when the requested amount fits the index space, mirroring the
panic in `rand::seq::index::sample`) rejects the invalid sample size and
`random` produces no graph. -/
theorem C6_invalid_sample_size {Rng : Type}
    (sample : Rng → Nat → Nat → Option (List Nat × Rng)) (rng : Rng)
    (hcontract : ∀ n k, (sample rng n k).isSome ↔ k ≤ n)
    (l r m : Nat) (hm : l * r < m) :
    random sample rng l r m = none := by
  have hnone : sample rng (l * r) m = none := by
    cases hs : sample rng (l * r) m with
    | none => rfl
    | some p =>
      have := (hcontract (l * r) m).mp (by rw [hs]; rfl)
      omega
  show (match sample rng (l * r) m with
    | none => none
    | some (codes, rng') => some (buildGraph l r codes, rng')) = none
  rw [hnone]

theorem C6_invalid_sample_size_witness :
    random (sampleRange : Unit → Nat → Nat → Option (List Nat × Unit))
      () 1 1 2 = none :=
  C6_invalid_sample_size sampleRange ()
    (fun n k => by
      by_cases h : k ≤ n <;> simp [sampleRange, h])
    1 1 2 (by decide)

/-- C7: Determinism with `randomized = false`: two runs that build the
graph from the same seeded random source and call `kuhn` with the
randomized flag off produce identical matching vectors; moreover with
the flag off the matching does not depend on the RNG value at all. -/
theorem C7_determinism {Rng : Type}
    (shuffle : Rng → List Nat → List Nat × Rng)
    (sample : Rng → Nat → Nat → Option (List Nat × Rng))
    (seed : Rng) (l r m : Nat) :
    (∀ g1 rngA g2 rngB, random sample seed l r m = some (g1, rngA) →
      random sample seed l r m = some (g2, rngB) →
      kuhn shuffle false g1 rngA = kuhn shuffle false g2 rngB) ∧
    (∀ (g : BipartiteGraph) (r1 r2 : Rng),
      kuhn shuffle false g r1 = kuhn shuffle false g r2) := by
  have h2 : ∀ (g : BipartiteGraph) (r1 r2 : Rng),
      kuhn shuffle false g r1 = kuhn shuffle false g r2 := by
    intro g r1 r2
    show (kuhnPrefix shuffle false g r1 g.leftNbrs.length).matched
      = (kuhnPrefix shuffle false g r2 g.leftNbrs.length).matched
    rw [kuhnPrefix_rng_swap shuffle g r2 r1 g.leftNbrs.length]
  refine ⟨?_, h2⟩
  intro g1 rngA g2 rngB hA hB
  rw [hA] at hB
  obtain ⟨hgeq, -⟩ := Prod.mk.injEq .. ▸ Option.some.inj hB
  rw [← hgeq]
  exact h2 g1 rngA rngB

theorem C7_determinism_witness :
    kuhn (shuffleId : Bool → List Nat → List Nat × Bool) false gSmall true
      = kuhn shuffleId false gSmall false :=
  (C7_determinism shuffleId sampleRange true 2 2 3).2 gSmall true false

/-- C8: Frame condition: a `kuhn` call with the randomized flag off
performs no mutation of the graph — the graph after the call (left and
right neighbour lists alike) is identical to the graph before, and the
RNG is not consumed. -/
theorem C8_frame_no_mutation {Rng : Type}
    (shuffle : Rng → List Nat → List Nat × Rng)
    (g : BipartiteGraph) (rng : Rng) :
    kuhnGraph shuffle false g rng = g ∧
      (kuhnRun shuffle false g rng).rng = rng := by
  constructor
  · show (⟨(kuhnRun shuffle false g rng).adj, g.rightNbrs⟩ : BipartiteGraph) = g
    rw [kuhnRun_unfold,
      (kuhnPrefix_false_frame shuffle g rng g.leftNbrs.length).1]
  · rw [kuhnRun_unfold]
    exact (kuhnPrefix_false_frame shuffle g rng g.leftNbrs.length).2

/-- C9: Termination of the augmenting search: a call on an
already-visited left node fails immediately (the visited marker), any
call whose fuel exceeds the number of unvisited left nodes returns (the
recursion depth is bounded by the number of left nodes), and in
particular the outer loop's calls with fuel `L + 1` on a fresh visited
array always return. -/
theorem C9_termination {Rng : Type}
    (shuffle : Rng → List Nat → List Nat × Rng) (R : Bool) :
    (∀ (fuel v : Nat) (s : KState Rng), 1 ≤ fuel →
      s.used.getD v true = true → tryKuhn shuffle R fuel v s = some (false, s)) ∧
    (∀ (fuel v : Nat) (s : KState Rng), s.used.count false < fuel →
      (tryKuhn shuffle R fuel v s).isSome) ∧
    (∀ (L v : Nat) (s : GState Rng),
      (tryKuhn shuffle R (L + 1) v
        ⟨s.adj, s.matched, List.replicate L false, s.rng⟩).isSome) := by
  refine ⟨?_, tryKuhn_fuel shuffle R, ?_⟩
  · intro fuel v s hf hu
    cases fuel with
    | zero => omega
    | succ fuel => rw [tryKuhn, if_pos hu]
  · intro L v s
    apply tryKuhn_fuel
    show (List.replicate L false).count false < L + 1
    rw [List.count_replicate_self]
    omega

theorem C9_termination_witness :
    tryKuhn (shuffleId : Unit → List Nat → List Nat × Unit) false 3 0
        ⟨[[0]], [none], [true], ()⟩ = some (false, ⟨[[0]], [none], [true], ()⟩) ∧
    (tryKuhn (shuffleId : Unit → List Nat → List Nat × Unit) false 3 0
        ⟨[[0]], [none], [false], ()⟩).isSome := by
  constructor
  · exact (C9_termination shuffleId false).1 3 0 ⟨[[0]], [none], [true], ()⟩
      (by omega) (by decide)
  · exact (C9_termination shuffleId false).2.1 3 0 ⟨[[0]], [none], [false], ()⟩
      (by decide)

/-- C10: Monotonicity of the matching during one `kuhn` run: once a
right slot holds `Some`, it never reverts to `None` — within any single
augmentation call every mutation goes from `None` to `Some` or `Some` to
`Some`, the same holds across the outer-loop iterations, and the number
of matched right nodes never decreases across the outer loop. -/
theorem C10_monotone {Rng : Type}
    (shuffle : Rng → List Nat → List Nat × Rng) (R : Bool)
    (g : BipartiteGraph) (rng : Rng) :
    (∀ (fuel v : Nat) (s : KState Rng) (b : Bool) (s' : KState Rng),
      tryKuhn shuffle R fuel v s = some (b, s') →
      ∀ j w, s.matched.getD j none = some w →
        ∃ w', s'.matched.getD j none = some w') ∧
    (∀ n n', n ≤ n' →
      (∀ j w, (kuhnPrefix shuffle R g rng n).matched.getD j none = some w →
        ∃ w', (kuhnPrefix shuffle R g rng n').matched.getD j none = some w') ∧
      msize (kuhnPrefix shuffle R g rng n).matched
        ≤ msize (kuhnPrefix shuffle R g rng n').matched) := by
  constructor
  · intro fuel v s b s' h j w hw
    exact (tryKuhn_step0 shuffle R fuel v s b s' h).1.msome j w hw
  · intro n n' hnn
    have hmono := kuhnPrefix_msome shuffle R g rng hnn
    refine ⟨hmono, ?_⟩
    exact msize_mono_of_pointwise
      ((kuhnPrefix_mlen shuffle R g rng n').trans
        (kuhnPrefix_mlen shuffle R g rng n).symm) hmono

theorem C10_monotone_witness :
    ∃ w', (kuhnPrefix (shuffleId : Unit → List Nat → List Nat × Unit)
      false gSmall () 2).matched.getD 0 none = some w' :=
  ((C10_monotone shuffleId false gSmall ()).2 1 2 (by omega)).1 0 0 (by decide)

end Claims
